import Mathlib

/-!
Shallow embedding of the custom-gate core of a PLONK-style circuit compiler:
the `BinaryArithmeticGate` and `BinarySubtractionGate` (wire layout, constraint
evaluators, witness generators) from `src/gates/binary_arithmetic.rs` and
`src/gates/binary_subtraction.rs`, and the vanishing-polynomial / Lagrange-basis
helpers from `src/plonk/plonk_common.rs`.

The gates are generic over a `RichField` (a 64-bit prime field with a canonical
integer representative); the field actually instantiated in this repository is
the Goldilocks field of order `2^64 - 2^32 + 1`, modelled here as `ZMod` of that
order.  The constraint evaluators only use ring operations and casts of small
naturals, so they are embedded generically over a commutative ring, matching the
Rust code that is generic over `F: Field` resp. `F::Extension`.
-/

set_option maxHeartbeats 1000000

/-- Order of the Goldilocks field, the `RichField` instance used by the gates. -/
def goldilocksOrder : ℕ := 2 ^ 64 - 2 ^ 32 + 1

/-- The Goldilocks field `F`; `ZMod.val` is `to_canonical_u64`. -/
abbrev Goldilocks : Type := ZMod goldilocksOrder

instance : NeZero goldilocksOrder := ⟨by norm_num [goldilocksOrder]⟩

instance : Fact (1 < goldilocksOrder) := ⟨by norm_num [goldilocksOrder]⟩

/-- `limb_bits()`: both gates use base-`2^2` limbs. -/
def limbBits : ℕ := 2

/-- Little-endian limb decomposition of `acc` into `n` base-`limbBase` digits.
Mirrors the `unfold`/`scan` loops in the generators: each step emits
`acc % limb_base` and replaces `acc` with `acc / limb_base`. -/
def limbDecomp (limbBase : ℕ) : ℕ → ℕ → List ℕ
  | 0, _ => []
  | n + 1, acc => acc % limbBase :: limbDecomp limbBase n (acc / limbBase)

/-- The evaluators' limb recombination fold: iterating from the highest limb to
the lowest, `combined = limb_base * combined + limb_j`. -/
def limbFold {R : Type} [CommSemiring R] (base : R) (ds : List R) : R :=
  ds.foldr (fun d acc => base * acc + d) 0

namespace BinaryArithmeticGate

/-- `num_limbs()` for `BinaryArithmeticGate<BITS>`: `2 * BITS / limb_bits()`. -/
def numLimbs (BITS : ℕ) : ℕ := 2 * BITS / limbBits

/-- `wire_ith_multiplicand_0`. -/
def wire_ith_multiplicand_0 (i : ℕ) : ℕ := 5 * i

/-- `wire_ith_multiplicand_1`. -/
def wire_ith_multiplicand_1 (i : ℕ) : ℕ := 5 * i + 1

/-- `wire_ith_addend`. -/
def wire_ith_addend (i : ℕ) : ℕ := 5 * i + 2

/-- `wire_ith_output_low_half`. -/
def wire_ith_output_low_half (i : ℕ) : ℕ := 5 * i + 3

/-- `wire_ith_output_high_half`. -/
def wire_ith_output_high_half (i : ℕ) : ℕ := 5 * i + 4

/-- `wire_ith_output_jth_limb`. -/
def wire_ith_output_jth_limb (numOps BITS i j : ℕ) : ℕ :=
  5 * numOps + numLimbs BITS * i + j

/-- `num_wires()`. -/
def num_wires (numOps BITS : ℕ) : ℕ := numOps * (5 + numLimbs BITS)

/-- `num_constraints()`. -/
def num_constraints (numOps BITS : ℕ) : ℕ := numOps * (3 + numLimbs BITS)

/-- `degree()`. -/
def degree : ℕ := 2 ^ limbBits

/-- `BinaryArithmeticGate::eval_unfiltered`, evaluated in the extension field in
the source; the body only uses ring operations and casts of small constants, so
it is embedded over any commutative ring `R`.  Wires are read from `w`. -/
def eval_unfiltered (R : Type) [CommRing R] (numOps BITS : ℕ) (w : ℕ → R) : List R :=
  (List.range numOps).flatMap (fun i =>
    let multiplicand_0 := w (wire_ith_multiplicand_0 i)
    let multiplicand_1 := w (wire_ith_multiplicand_1 i)
    let addend := w (wire_ith_addend i)
    let computed_output := multiplicand_0 * multiplicand_1 + addend
    let output_low := w (wire_ith_output_low_half i)
    let output_high := w (wire_ith_output_high_half i)
    let base : R := ((2 ^ BITS : ℕ) : R)
    let combined_output := output_high * base + output_low
    let midpoint := numLimbs BITS / 2
    let limb_base : R := ((2 ^ limbBits : ℕ) : R)
    let acc := (List.range (numLimbs BITS)).reverse.foldl
      (fun (st : R × R × List R) j =>
        let this_limb := w (wire_ith_output_jth_limb numOps BITS i j)
        let product := ((List.range (2 ^ limbBits)).map
          (fun x => this_limb - ((x : ℕ) : R))).prod
        if j < midpoint then (limb_base * st.1 + this_limb, st.2.1, st.2.2 ++ [product])
        else (st.1, limb_base * st.2.1 + this_limb, st.2.2 ++ [product]))
      (0, 0, [])
    (combined_output - computed_output) ::
      (acc.2.2 ++ [acc.1 - output_low, acc.2.1 - output_high]))

/-- `BinaryArithmeticGate::eval_unfiltered_base`: the same constraints evaluated
over the native field; in the source this is a second, separately written body. -/
def eval_unfiltered_base (R : Type) [CommRing R] (numOps BITS : ℕ) (w : ℕ → R) : List R :=
  (List.range numOps).flatMap (fun i =>
    let multiplicand_0 := w (wire_ith_multiplicand_0 i)
    let multiplicand_1 := w (wire_ith_multiplicand_1 i)
    let addend := w (wire_ith_addend i)
    let computed_output := multiplicand_0 * multiplicand_1 + addend
    let output_low := w (wire_ith_output_low_half i)
    let output_high := w (wire_ith_output_high_half i)
    let base : R := ((2 ^ BITS : ℕ) : R)
    let combined_output := output_high * base + output_low
    let midpoint := numLimbs BITS / 2
    let limb_base : R := ((2 ^ limbBits : ℕ) : R)
    let acc := (List.range (numLimbs BITS)).reverse.foldl
      (fun (st : R × R × List R) j =>
        let this_limb := w (wire_ith_output_jth_limb numOps BITS i j)
        let product := ((List.range (2 ^ limbBits)).map
          (fun x => this_limb - ((x : ℕ) : R))).prod
        if j < midpoint then (limb_base * st.1 + this_limb, st.2.1, st.2.2 ++ [product])
        else (st.1, limb_base * st.2.1 + this_limb, st.2.2 ++ [product]))
      (0, 0, [])
    (combined_output - computed_output) ::
      (acc.2.2 ++ [acc.1 - output_low, acc.2.1 - output_high]))

/-- `BinaryArithmeticGenerator::run_once` for op `i`: reads the three routed
inputs, computes `output = multiplicand_0 * multiplicand_1 + addend`, splits its
canonical representative into high/low `BITS`-bit halves and into
`num_limbs` little-endian base-`2^limb_bits` limbs.
Returns `((output_high, output_low), output_limbs)`. -/
def run_once (BITS : ℕ) (multiplicand_0 multiplicand_1 addend : Goldilocks) :
    (Goldilocks × Goldilocks) × List Goldilocks :=
  let output := multiplicand_0 * multiplicand_1 + addend
  let output_u64 := output.val
  let output_high_u64 := output_u64 >>> BITS
  let output_low_u64 := output_u64 &&& (2 ^ BITS - 1)
  let output_high : Goldilocks := (output_high_u64 : ℕ)
  let output_low : Goldilocks := (output_low_u64 : ℕ)
  let output_limbs_f := (limbDecomp (2 ^ limbBits) (numLimbs BITS) output_u64).map
    (fun l => ((l : ℕ) : Goldilocks))
  ((output_high, output_low), output_limbs_f)

/-- The wire indices declared by `BinaryArithmeticGenerator::dependencies`. -/
def dependencies (i : ℕ) : List ℕ :=
  [wire_ith_multiplicand_0 i, wire_ith_multiplicand_1 i, wire_ith_addend i]

/-- The wire indices written by `BinaryArithmeticGenerator::run_once`, in write
order: the high half, the low half, then the limbs. -/
def writtenWires (numOps BITS i : ℕ) : List ℕ :=
  wire_ith_output_high_half i :: wire_ith_output_low_half i ::
    (List.range (numLimbs BITS)).map (wire_ith_output_jth_limb numOps BITS i)

/-- The full row assignment after all `num_ops` generators have run: routed
wires `5*i .. 5*i+4` hold the three inputs of op `i` and the two output halves
written by its generator; limb wires hold the limbs written by the generators. -/
def witnessAssignment (numOps BITS : ℕ) (m0s m1s ads : ℕ → Goldilocks) : ℕ → Goldilocks :=
  fun k =>
    if k < 5 * numOps then
      let i := k / 5
      match k % 5 with
      | 0 => m0s i
      | 1 => m1s i
      | 2 => ads i
      | 3 => (run_once BITS (m0s i) (m1s i) (ads i)).1.2
      | _ => (run_once BITS (m0s i) (m1s i) (ads i)).1.1
    else
      let r := k - 5 * numOps
      let i := r / numLimbs BITS
      let j := r % numLimbs BITS
      (run_once BITS (m0s i) (m1s i) (ads i)).2.getD j 0

end BinaryArithmeticGate

namespace BinarySubtractionGate

/-- `num_limbs()` for `BinarySubtractionGate<BITS>`: `BITS / limb_bits()`
(limbs only for `output_result`). -/
def numLimbs (BITS : ℕ) : ℕ := BITS / limbBits

/-- `wire_ith_input_x`. -/
def wire_ith_input_x (i : ℕ) : ℕ := 5 * i

/-- `wire_ith_input_y`. -/
def wire_ith_input_y (i : ℕ) : ℕ := 5 * i + 1

/-- `wire_ith_input_borrow`. -/
def wire_ith_input_borrow (i : ℕ) : ℕ := 5 * i + 2

/-- `wire_ith_output_result`. -/
def wire_ith_output_result (i : ℕ) : ℕ := 5 * i + 3

/-- `wire_ith_output_borrow`. -/
def wire_ith_output_borrow (i : ℕ) : ℕ := 5 * i + 4

/-- `wire_ith_output_jth_limb`. -/
def wire_ith_output_jth_limb (numOps BITS i j : ℕ) : ℕ :=
  5 * numOps + numLimbs BITS * i + j

/-- `num_wires()`. -/
def num_wires (numOps BITS : ℕ) : ℕ := numOps * (5 + numLimbs BITS)

/-- `num_constraints()`. -/
def num_constraints (numOps BITS : ℕ) : ℕ := numOps * (numLimbs BITS + 3)

/-- `degree()`. -/
def degree : ℕ := 2 ^ limbBits

/-- `BinarySubtractionGate::eval_unfiltered` (extension-field evaluator in the
source), embedded over any commutative ring `R`. -/
def eval_unfiltered (R : Type) [CommRing R] (numOps BITS : ℕ) (w : ℕ → R) : List R :=
  (List.range numOps).flatMap (fun i =>
    let input_x := w (wire_ith_input_x i)
    let input_y := w (wire_ith_input_y i)
    let input_borrow := w (wire_ith_input_borrow i)
    let result_initial := input_x - input_y - input_borrow
    let base : R := ((2 ^ BITS : ℕ) : R)
    let output_result := w (wire_ith_output_result i)
    let output_borrow := w (wire_ith_output_borrow i)
    let limb_base : R := ((2 ^ limbBits : ℕ) : R)
    let acc := (List.range (numLimbs BITS)).reverse.foldl
      (fun (st : R × List R) j =>
        let this_limb := w (wire_ith_output_jth_limb numOps BITS i j)
        let product := ((List.range (2 ^ limbBits)).map
          (fun x => this_limb - ((x : ℕ) : R))).prod
        (limb_base * st.1 + this_limb, st.2 ++ [product]))
      (0, [])
    (output_result - (result_initial + base * output_borrow)) ::
      (acc.2 ++ [acc.1 - output_result, output_borrow * (1 - output_borrow)]))

/-- `BinarySubtractionGate::eval_unfiltered_base`: the separately written
native-field body of the same constraints. -/
def eval_unfiltered_base (R : Type) [CommRing R] (numOps BITS : ℕ) (w : ℕ → R) : List R :=
  (List.range numOps).flatMap (fun i =>
    let input_x := w (wire_ith_input_x i)
    let input_y := w (wire_ith_input_y i)
    let input_borrow := w (wire_ith_input_borrow i)
    let result_initial := input_x - input_y - input_borrow
    let base : R := ((2 ^ BITS : ℕ) : R)
    let output_result := w (wire_ith_output_result i)
    let output_borrow := w (wire_ith_output_borrow i)
    let limb_base : R := ((2 ^ limbBits : ℕ) : R)
    let acc := (List.range (numLimbs BITS)).reverse.foldl
      (fun (st : R × List R) j =>
        let this_limb := w (wire_ith_output_jth_limb numOps BITS i j)
        let product := ((List.range (2 ^ limbBits)).map
          (fun x => this_limb - ((x : ℕ) : R))).prod
        (limb_base * st.1 + this_limb, st.2 ++ [product]))
      (0, [])
    (output_result - (result_initial + base * output_borrow)) ::
      (acc.2 ++ [acc.1 - output_result, output_borrow * (1 - output_borrow)]))

/-- `BinarySubtractionGenerator::run_once` for one op: computes
`result_initial = x - y - borrow` in the field, decides the output borrow by
comparing the canonical representative `result_initial_u64` strictly against
`2^BITS`, forms `output_result = result_initial + 2^BITS * output_borrow`, and
little-endian-decomposes its canonical representative into `num_limbs` limbs.
Returns `((output_result, output_borrow), output_limbs)`. -/
def run_once (BITS : ℕ) (input_x input_y input_borrow : Goldilocks) :
    (Goldilocks × Goldilocks) × List Goldilocks :=
  let result_initial := input_x - input_y - input_borrow
  let result_initial_u64 := result_initial.val
  let output_borrow : Goldilocks := if result_initial_u64 > 2 ^ BITS then 1 else 0
  let base : Goldilocks := ((2 ^ BITS : ℕ) : Goldilocks)
  let output_result := result_initial + base * output_borrow
  let output_result_u64 := output_result.val
  let output_limbs := (limbDecomp (2 ^ limbBits) (numLimbs BITS) output_result_u64).map
    (fun l => ((l : ℕ) : Goldilocks))
  ((output_result, output_borrow), output_limbs)

/-- The wire indices declared by `BinarySubtractionGenerator::dependencies`. -/
def dependencies (i : ℕ) : List ℕ :=
  [wire_ith_input_x i, wire_ith_input_y i, wire_ith_input_borrow i]

/-- The wire indices written by `BinarySubtractionGenerator::run_once`, in write
order: the result, the borrow, then the limbs. -/
def writtenWires (numOps BITS i : ℕ) : List ℕ :=
  wire_ith_output_result i :: wire_ith_output_borrow i ::
    (List.range (numLimbs BITS)).map (wire_ith_output_jth_limb numOps BITS i)

end BinarySubtractionGate

namespace BinaryArithmeticGate

/-- The body of the limb loop shared textually by both evaluator bodies:
state is `(combined_low_limbs, combined_high_limbs, constraints)`. -/
def limbLoopStep (R : Type) [CommRing R] (numOps BITS i : ℕ) (w : ℕ → R) :
    (R × R × List R) → ℕ → (R × R × List R) :=
  fun st j =>
    let this_limb := w (wire_ith_output_jth_limb numOps BITS i j)
    let product := ((List.range (2 ^ limbBits)).map
      (fun x => this_limb - ((x : ℕ) : R))).prod
    if j < numLimbs BITS / 2
    then (((2 ^ limbBits : ℕ) : R) * st.1 + this_limb, st.2.1, st.2.2 ++ [product])
    else (st.1, ((2 ^ limbBits : ℕ) : R) * st.2.1 + this_limb, st.2.2 ++ [product])

/-- The constraints emitted for op `i`, in emission order. -/
def opConstraints (R : Type) [CommRing R] (numOps BITS : ℕ) (w : ℕ → R) (i : ℕ) : List R :=
  let multiplicand_0 := w (wire_ith_multiplicand_0 i)
  let multiplicand_1 := w (wire_ith_multiplicand_1 i)
  let addend := w (wire_ith_addend i)
  let computed_output := multiplicand_0 * multiplicand_1 + addend
  let output_low := w (wire_ith_output_low_half i)
  let output_high := w (wire_ith_output_high_half i)
  let base : R := ((2 ^ BITS : ℕ) : R)
  let combined_output := output_high * base + output_low
  let acc := (List.range (numLimbs BITS)).reverse.foldl
    (limbLoopStep R numOps BITS i w) (0, 0, [])
  (combined_output - computed_output) ::
    (acc.2.2 ++ [acc.1 - output_low, acc.2.1 - output_high])

end BinaryArithmeticGate

namespace BinarySubtractionGate

/-- The body of the limb loop shared textually by both evaluator bodies:
state is `(combined_limbs, constraints)`. -/
def limbLoopStep (R : Type) [CommRing R] (numOps BITS i : ℕ) (w : ℕ → R) :
    (R × List R) → ℕ → (R × List R) :=
  fun st j =>
    let this_limb := w (wire_ith_output_jth_limb numOps BITS i j)
    let product := ((List.range (2 ^ limbBits)).map
      (fun x => this_limb - ((x : ℕ) : R))).prod
    (((2 ^ limbBits : ℕ) : R) * st.1 + this_limb, st.2 ++ [product])

/-- The constraints emitted for op `i`, in emission order. -/
def opConstraints (R : Type) [CommRing R] (numOps BITS : ℕ) (w : ℕ → R) (i : ℕ) : List R :=
  let input_x := w (wire_ith_input_x i)
  let input_y := w (wire_ith_input_y i)
  let input_borrow := w (wire_ith_input_borrow i)
  let result_initial := input_x - input_y - input_borrow
  let base : R := ((2 ^ BITS : ℕ) : R)
  let output_result := w (wire_ith_output_result i)
  let output_borrow := w (wire_ith_output_borrow i)
  let acc := (List.range (numLimbs BITS)).reverse.foldl
    (limbLoopStep R numOps BITS i w) (0, [])
  (output_result - (result_initial + base * output_borrow)) ::
    (acc.2 ++ [acc.1 - output_result, output_borrow * (1 - output_borrow)])

end BinarySubtractionGate

/-- `eval_zero_poly(n, x) = x^n - 1`, the polynomial vanishing on any
multiplicative subgroup of order `n`. -/
def eval_zero_poly {F : Type} [Field F] (n : ℕ) (x : F) : F := x ^ n - 1

/-- `eval_l_1(n, x)`: the scalar Lagrange-basis evaluator.  Special-cases
`x == 1` (returning `1` and avoiding the `0/0`), otherwise returns
`Z(x) / (n * (x - 1))`. -/
def eval_l_1 {F : Type} [Field F] [DecidableEq F] (n : ℕ) (x : F) : F :=
  if x = 1 then 1
  else eval_zero_poly n x / ((n : F) * (x - 1))

/-- `ZeroPolyOnCoset`: precomputed evaluations of `Z_H(X) = X^n - 1` and their
inverses on a coset `g K`, `H <= K`. -/
structure ZeroPolyOnCoset (F : Type) [Field F] where
  n : F
  rate : ℕ
  evals : List F
  inverses : List F

/-- Modelled from the spec: `F::batch_multiplicative_inverse` lives in the field
crate (not under `src/`); the spec describes it as the batched-inverse pass
computing the multiplicative inverses of all entries. -/
def batch_multiplicative_inverse {F : Type} [Field F] (xs : List F) : List F :=
  xs.map (fun x => x⁻¹)

/-- Modelled from the spec: `F::two_adic_subgroup(rate_bits)` lives in the field
crate (not under `src/`); the spec describes its elements as the points `w^i`
for a `2^rate_bits`-primitive root of unity `w`, which is taken as a parameter
here. -/
def two_adic_subgroup {F : Type} [Field F] (w : F) (rate_bits : ℕ) : List F :=
  (List.range (2 ^ rate_bits)).map (fun i => w ^ i)

/-- `ZeroPolyOnCoset::new(n_log, rate_bits)`, with the coset shift `g` and the
subgroup generator `w` (both provided by the field crate) as parameters:
`evals[i] = g^n * w^i - 1`, `inverses` their batched inverses, `n = 2^n_log`,
`rate = 2^rate_bits`. -/
def ZeroPolyOnCoset.new {F : Type} [Field F] (g w : F) (n_log rate_bits : ℕ) :
    ZeroPolyOnCoset F :=
  let g_pow_n := g ^ (2 ^ n_log)
  let evals := (two_adic_subgroup w rate_bits).map (fun x => g_pow_n * x - 1)
  { n := ((2 ^ n_log : ℕ) : F)
    rate := 2 ^ rate_bits
    evals := evals
    inverses := batch_multiplicative_inverse evals }

/-- `ZeroPolyOnCoset::eval(i) = evals[i % rate]`. -/
def ZeroPolyOnCoset.eval {F : Type} [Field F] (z : ZeroPolyOnCoset F) (i : ℕ) : F :=
  z.evals.getD (i % z.rate) 0

/-- `ZeroPolyOnCoset::eval_inverse(i) = inverses[i % rate]`. -/
def ZeroPolyOnCoset.eval_inverse {F : Type} [Field F] (z : ZeroPolyOnCoset F) (i : ℕ) : F :=
  z.inverses.getD (i % z.rate) 0

/-- `ZeroPolyOnCoset::eval_l1(i, x) = eval(i) * (n * (x - 1)).inverse()`: an
unguarded inversion, with no `x == 1` special case. -/
def ZeroPolyOnCoset.eval_l1 {F : Type} [Field F] (z : ZeroPolyOnCoset F) (i : ℕ) (x : F) : F :=
  z.eval i * (z.n * (x - 1))⁻¹

namespace BinaryArithmeticGate

/-- All wire indices of op `i`: the five routed roles and the limb wires. -/
def opWires (numOps BITS i : ℕ) : List ℕ :=
  wire_ith_multiplicand_0 i :: wire_ith_multiplicand_1 i :: wire_ith_addend i ::
    wire_ith_output_low_half i :: wire_ith_output_high_half i ::
    (List.range (numLimbs BITS)).map (wire_ith_output_jth_limb numOps BITS i)

/-- All wire indices returned by the accessors over all ops and limb positions. -/
def allWires (numOps BITS : ℕ) : List ℕ :=
  (List.range numOps).flatMap (fun i =>
    [wire_ith_multiplicand_0 i, wire_ith_multiplicand_1 i, wire_ith_addend i,
      wire_ith_output_low_half i, wire_ith_output_high_half i]) ++
  (List.range numOps).flatMap (fun i =>
    (List.range (numLimbs BITS)).map (wire_ith_output_jth_limb numOps BITS i))

end BinaryArithmeticGate

namespace BinarySubtractionGate

/-- All wire indices of op `i`: the five routed roles and the limb wires. -/
def opWires (numOps BITS i : ℕ) : List ℕ :=
  wire_ith_input_x i :: wire_ith_input_y i :: wire_ith_input_borrow i ::
    wire_ith_output_result i :: wire_ith_output_borrow i ::
    (List.range (numLimbs BITS)).map (wire_ith_output_jth_limb numOps BITS i)

/-- All wire indices returned by the accessors over all ops and limb positions. -/
def allWires (numOps BITS : ℕ) : List ℕ :=
  (List.range numOps).flatMap (fun i =>
    [wire_ith_input_x i, wire_ith_input_y i, wire_ith_input_borrow i,
      wire_ith_output_result i, wire_ith_output_borrow i]) ++
  (List.range numOps).flatMap (fun i =>
    (List.range (numLimbs BITS)).map (wire_ith_output_jth_limb numOps BITS i))

end BinarySubtractionGate

/-! ### Arithmetic facts about limb decomposition and the Goldilocks order -/

theorem limbDecomp_length (b n v : ℕ) : (limbDecomp b n v).length = n := by
  induction n generalizing v with
  | zero => rfl
  | succ n ih => simp [limbDecomp, ih]

theorem limbDecomp_getD (b : ℕ) :
    ∀ n v j, j < n → (limbDecomp b n v).getD j 0 = v / b ^ j % b := by
  intro n
  induction n with
  | zero => intro v j h; omega
  | succ n ih =>
    intro v j h
    cases j with
    | zero => simp [limbDecomp]
    | succ j =>
      have := ih (v / b) j (by omega)
      simpa [limbDecomp, Nat.div_div_eq_div_mul, pow_succ, mul_comm] using this

theorem limbFold_nil {R : Type} [CommSemiring R] (base : R) : limbFold base [] = 0 := rfl

theorem limbFold_cons {R : Type} [CommSemiring R] (base d : R) (l : List R) :
    limbFold base (d :: l) = base * limbFold base l + d := rfl

theorem limbFold_limbDecomp (b : ℕ) : ∀ n v, limbFold b (limbDecomp b n v) = v % b ^ n := by
  intro n
  induction n with
  | zero => intro v; simp [limbDecomp, limbFold, Nat.mod_one]
  | succ n ih =>
    intro v
    rw [limbDecomp, limbFold_cons, ih, pow_succ b n, mul_comm (b ^ n) b, Nat.mod_mul]
    ring

theorem limbFold_map_natCast {R : Type} [CommSemiring R] (b : ℕ) (l : List ℕ) :
    limbFold ((b : ℕ) : R) (l.map (fun d => ((d : ℕ) : R))) = ((limbFold b l : ℕ) : R) := by
  induction l with
  | nil => simp [limbFold]
  | cons d l ih => rw [List.map_cons, limbFold_cons, limbFold_cons, ih]; push_cast; ring

theorem limbFold_digits (b v : ℕ) :
    ∀ m s, limbFold b ((List.range' s m).map (fun j => v / b ^ j % b)) = v / b ^ s % b ^ m := by
  intro m
  induction m with
  | zero => intro s; simp [limbFold, Nat.mod_one]
  | succ m ih =>
    intro s
    rw [List.range'_succ, List.map_cons, limbFold_cons, ih, pow_succ b m, mul_comm (b ^ m) b,
      Nat.mod_mul]
    have hdiv : v / b ^ (s + 1) = v / b ^ s / b := by
      rw [Nat.div_div_eq_div_mul, ← pow_succ]
    rw [hdiv]
    ring

theorem two_pow_32_lt_goldilocksOrder : 2 ^ 32 < goldilocksOrder := by
  norm_num [goldilocksOrder]

theorem goldilocks_no_wrap {BITS a b c : ℕ} (hB : BITS ≤ 32)
    (ha : a < 2 ^ BITS) (hb : b < 2 ^ BITS) (hc : c < 2 ^ BITS) :
    a * b + c < goldilocksOrder := by
  have h2 : 2 ^ BITS ≤ 2 ^ 32 := Nat.pow_le_pow_right (by norm_num) hB
  have ha' : a ≤ 2 ^ 32 - 1 := by omega
  have hb' : b ≤ 2 ^ 32 - 1 := by omega
  have hab : a * b ≤ (2 ^ 32 - 1) * (2 ^ 32 - 1) := Nat.mul_le_mul ha' hb'
  have hfin : (2 ^ 32 - 1) * (2 ^ 32 - 1) + (2 ^ 32 - 1) < goldilocksOrder := by
    norm_num [goldilocksOrder]
  omega

theorem goldilocksOrder_eq : goldilocksOrder = 18446744069414584321 := by
  norm_num [goldilocksOrder]

/-- C1: integer semantics of the `BinarySubtractionGenerator`. -/
theorem subtraction_run_once_integer_semantics (BITS : ℕ) (hB : BITS ≤ 32)
    (x y b : Goldilocks) (hx : x.val < 2 ^ BITS) (hy : y.val < 2 ^ BITS)
    (hb : b = 0 ∨ b = 1) :
    (BinarySubtractionGate.run_once BITS x y b).1.1.val < 2 ^ BITS ∧
    ((BinarySubtractionGate.run_once BITS x y b).1.2 = 0 ∨
      (BinarySubtractionGate.run_once BITS x y b).1.2 = 1) ∧
    ((BinarySubtractionGate.run_once BITS x y b).1.1.val : ℤ) =
      (x.val : ℤ) - (y.val : ℤ) - (b.val : ℤ) +
        ((BinarySubtractionGate.run_once BITS x y b).1.2.val : ℤ) * ((2 ^ BITS : ℕ) : ℤ) ∧
    ((BinarySubtractionGate.run_once BITS x y b).1.2 = 1 ↔
      (x.val : ℤ) - (y.val : ℤ) - (b.val : ℤ) < 0) := by
  have horder := goldilocksOrder_eq
  have hord : (2 : ℕ) ^ BITS ≤ 2 ^ 32 := Nat.pow_le_pow_right (by norm_num) hB
  have hbval : b.val ≤ 1 := by
    rcases hb with h | h <;> subst h <;> simp [ZMod.val_one]
  have hxc : ((x.val : ℕ) : Goldilocks) = x := ZMod.natCast_rightInverse x
  have hyc : ((y.val : ℕ) : Goldilocks) = y := ZMod.natCast_rightInverse y
  have hbc : ((b.val : ℕ) : Goldilocks) = b := ZMod.natCast_rightInverse b
  by_cases hcase : y.val + b.val ≤ x.val
  · -- no underflow: the strict comparison is false, borrow_out = 0
    have e1 : ((x.val - y.val - b.val : ℕ) : Goldilocks) = x - y - b := by
      rw [Nat.cast_sub (by omega), Nat.cast_sub (by omega), hxc, hyc, hbc]
    have hvlt : x.val - y.val - b.val < goldilocksOrder := by omega
    have hval : (x - y - b).val = x.val - y.val - b.val := by
      rw [← e1, ZMod.val_cast_of_lt hvlt]
    have hcond : ¬ (x - y - b).val > 2 ^ BITS := by omega
    simp only [BinarySubtractionGate.run_once, if_neg hcond, mul_zero, add_zero]
    rw [hval, ZMod.val_zero]
    refine ⟨by omega, by trivial, by omega, ?_⟩
    constructor
    · intro h; exact absurd h.symm one_ne_zero
    · intro h; omega
  · push_neg at hcase
    obtain ⟨d, hd⟩ : ∃ k : ℕ, k = ZMod.val y + ZMod.val b - ZMod.val x := ⟨_, rfl⟩
    have hd1 : 1 ≤ d := by omega
    have hd2 : d ≤ 2 ^ BITS := by omega
    have e1 : ((d : ℕ) : Goldilocks) = -(x - y - b) := by
      rw [hd, Nat.cast_sub (by omega)]
      push_cast
      rw [hxc, hyc, hbc]
      ring
    have hdlt : d < goldilocksOrder := by omega
    have hdval : ((d : ℕ) : Goldilocks).val = d := ZMod.val_cast_of_lt hdlt
    have hdne : ((d : ℕ) : Goldilocks) ≠ 0 := by
      intro h; rw [h, ZMod.val_zero] at hdval; omega
    have hneg : (x - y - b) = -((d : ℕ) : Goldilocks) := by rw [e1]; ring
    have hval : (x - y - b).val = goldilocksOrder - d := by
      rw [hneg, ZMod.neg_val, if_neg hdne, hdval]
    have hcond : (x - y - b).val > 2 ^ BITS := by omega
    have e2 : (x - y - b) + ((2 ^ BITS : ℕ) : Goldilocks) * 1 =
        ((2 ^ BITS - d : ℕ) : Goldilocks) := by
      rw [hneg, Nat.cast_sub hd2]
      ring
    have hrlt : 2 ^ BITS - d < goldilocksOrder := by omega
    have hrval : (((2 ^ BITS - d : ℕ) : Goldilocks)).val = 2 ^ BITS - d :=
      ZMod.val_cast_of_lt hrlt
    simp only [BinarySubtractionGate.run_once, if_pos hcond, e2]
    rw [hrval, ZMod.val_one]
    refine ⟨by omega, by trivial, by omega, ?_⟩
    constructor
    · intro _; omega
    · intro _; trivial

/-- Witness for C1, at the spec scenario `BITS = 32`, `x = 10`, `y = 15`,
`borrow_in = 0` (underflow: `borrow_out = 1`, `result = 4294967291`). -/
theorem subtraction_run_once_integer_semantics_witness :
    (BinarySubtractionGate.run_once 32 10 15 0).1.1.val < 2 ^ 32 ∧
    ((BinarySubtractionGate.run_once 32 10 15 0).1.2 = 0 ∨
      (BinarySubtractionGate.run_once 32 10 15 0).1.2 = 1) ∧
    ((BinarySubtractionGate.run_once 32 10 15 0).1.1.val : ℤ) =
      ((10 : Goldilocks).val : ℤ) - ((15 : Goldilocks).val : ℤ) -
        ((0 : Goldilocks).val : ℤ) +
        ((BinarySubtractionGate.run_once 32 10 15 0).1.2.val : ℤ) * ((2 ^ 32 : ℕ) : ℤ) ∧
    ((BinarySubtractionGate.run_once 32 10 15 0).1.2 = 1 ↔
      ((10 : Goldilocks).val : ℤ) - ((15 : Goldilocks).val : ℤ) -
        ((0 : Goldilocks).val : ℤ) < 0) :=
  subtraction_run_once_integer_semantics 32 (by norm_num) 10 15 0 (by decide) (by decide)
    (Or.inl rfl)

/-- C4: integer exactness of the `BinaryArithmeticGenerator` output halves. -/
theorem arithmetic_run_once_exact (BITS : ℕ)
    (hBmem : BITS ∈ [8, 16, 24, 30, 32]) (m0 m1 a : Goldilocks)
    (h0 : m0.val < 2 ^ BITS) (h1 : m1.val < 2 ^ BITS) (h2 : a.val < 2 ^ BITS) :
    (BinaryArithmeticGate.run_once BITS m0 m1 a).1.2.val +
      2 ^ BITS * (BinaryArithmeticGate.run_once BITS m0 m1 a).1.1.val =
      m0.val * m1.val + a.val ∧
    m0.val * m1.val + a.val < goldilocksOrder := by
  have hB32 : BITS ≤ 32 := by
    simp only [List.mem_cons, List.not_mem_nil, or_false] at hBmem
    rcases hBmem with rfl | rfl | rfl | rfl | rfl <;> norm_num
  have horder := goldilocksOrder_eq
  have hord : (2 : ℕ) ^ BITS ≤ 2 ^ 32 := Nat.pow_le_pow_right (by norm_num) hB32
  have hpos : 0 < 2 ^ BITS := pow_pos (by norm_num) BITS
  have hwrap : m0.val * m1.val + a.val < goldilocksOrder := goldilocks_no_wrap hB32 h0 h1 h2
  have hm0 : ((m0.val : ℕ) : Goldilocks) = m0 := ZMod.natCast_rightInverse m0
  have hm1 : ((m1.val : ℕ) : Goldilocks) = m1 := ZMod.natCast_rightInverse m1
  have ha : ((a.val : ℕ) : Goldilocks) = a := ZMod.natCast_rightInverse a
  have hout : ((m0.val * m1.val + a.val : ℕ) : Goldilocks) = m0 * m1 + a := by
    rw [Nat.cast_add, Nat.cast_mul, hm0, hm1, ha]
  have hval : (m0 * m1 + a).val = m0.val * m1.val + a.val := by
    rw [← hout, ZMod.val_cast_of_lt hwrap]
  have hmod : (m0.val * m1.val + a.val) % 2 ^ BITS < 2 ^ BITS :=
    Nat.mod_lt _ hpos
  have hdiv : (m0.val * m1.val + a.val) / 2 ^ BITS ≤ m0.val * m1.val + a.val :=
    Nat.div_le_self _ _
  simp only [BinaryArithmeticGate.run_once, hval, Nat.and_pow_two_sub_one_eq_mod,
    Nat.shiftRight_eq_div_pow]
  rw [ZMod.val_cast_of_lt (by omega), ZMod.val_cast_of_lt (by omega)]
  exact ⟨Nat.mod_add_div _ _, hwrap⟩

/-- Witness for C4, at the spec scenario `BITS = 24`, inputs `(5, 7, 2)`
(`output_low = 37`, `output_high = 0`). -/
theorem arithmetic_run_once_exact_witness :
    (BinaryArithmeticGate.run_once 24 5 7 2).1.2.val +
      2 ^ 24 * (BinaryArithmeticGate.run_once 24 5 7 2).1.1.val =
      (5 : Goldilocks).val * (7 : Goldilocks).val + (2 : Goldilocks).val ∧
    (5 : Goldilocks).val * (7 : Goldilocks).val + (2 : Goldilocks).val < goldilocksOrder :=
  arithmetic_run_once_exact 24 (by decide) 5 7 2 (by decide) (by decide) (by decide)

/-- C6: limb round-trip.  Recombining the little-endian base-`2^limb_bits`
limbs produced by each gate's generator decomposition, via the evaluators' fold
(`combined = limb_base * combined + limb_j`, highest limb first), reproduces the
decomposed value exactly. -/
theorem limb_round_trip :
    (∀ BITS v : ℕ, v < 2 ^ (2 * BITS) →
      limbFold (2 ^ limbBits)
        (limbDecomp (2 ^ limbBits) (BinaryArithmeticGate.numLimbs BITS) v) = v) ∧
    (∀ BITS v : ℕ, 2 ∣ BITS → v < 2 ^ BITS →
      limbFold (2 ^ limbBits)
        (limbDecomp (2 ^ limbBits) (BinarySubtractionGate.numLimbs BITS) v) = v) := by
  constructor
  · intro BITS v hv
    have hpow : ((2 : ℕ) ^ limbBits) ^ BinaryArithmeticGate.numLimbs BITS = 2 ^ (2 * BITS) := by
      rw [← pow_mul]
      congr 1
      simp only [BinaryArithmeticGate.numLimbs, limbBits]
      omega
    rw [limbFold_limbDecomp, hpow, Nat.mod_eq_of_lt hv]
  · intro BITS v hdvd hv
    have hpow : ((2 : ℕ) ^ limbBits) ^ BinarySubtractionGate.numLimbs BITS = 2 ^ BITS := by
      rw [← pow_mul]
      congr 1
      simp only [BinarySubtractionGate.numLimbs, limbBits]
      omega
    rw [limbFold_limbDecomp, hpow, Nat.mod_eq_of_lt hv]

/-- Witness for C6 at the boundary values: `BITS = 8`, `v = 2^(2*8) - 1` for the
arithmetic gate and `v = 2^8 - 1` for the subtraction gate. -/
theorem limb_round_trip_witness :
    limbFold (2 ^ limbBits)
      (limbDecomp (2 ^ limbBits) (BinaryArithmeticGate.numLimbs 8) 65535) = 65535 ∧
    limbFold (2 ^ limbBits)
      (limbDecomp (2 ^ limbBits) (BinarySubtractionGate.numLimbs 8) 255) = 255 :=
  ⟨limb_round_trip.1 8 65535 (by norm_num), limb_round_trip.2 8 255 (by norm_num) (by norm_num)⟩

/-- In a field where `2 = 0`, the only `2^k`-th root of unity is `1`. -/
theorem eq_one_of_pow_two_pow {F : Type} [Field F] (h2 : (2 : F) = 0) :
    ∀ (k : ℕ) (x : F), x ^ (2 ^ k) = 1 → x = 1 := by
  intro k
  induction k with
  | zero => intro x hx; simpa using hx
  | succ k ih =>
    intro x hx
    have hx2 : (x ^ 2) ^ (2 ^ k) = 1 := by
      rw [← pow_mul, ← pow_succ']
      exact hx
    have hsq : x ^ 2 = 1 := ih (x ^ 2) hx2
    have hz : (x - 1) ^ 2 = 0 := by
      linear_combination hsq + (1 - x) * h2
    have hx1 : x - 1 = 0 := by
      have := pow_eq_zero_iff (two_ne_zero) |>.mp hz
      exact this
    exact sub_eq_zero.mp hx1

/-- C5: `eval_l_1(n, x)` returns exactly `1` at `x = 1` (via the special-case
branch) and exactly `0` at every other `n`-th root of unity, the denominator
`n * (x - 1)` being nonzero there, for every subgroup order `n = 2^k >= 2`. -/
theorem eval_l_1_correct {F : Type} [Field F] [DecidableEq F] (n k : ℕ) (x : F)
    (hk : 1 ≤ k) (hn : n = 2 ^ k) (hx : x ^ n = 1) :
    eval_l_1 n (1 : F) = 1 ∧
    (x ≠ 1 → (((n : ℕ) : F) * (x - 1) ≠ 0 ∧ eval_l_1 n x = 0)) := by
  constructor
  · simp [eval_l_1]
  · intro hx1
    subst hn
    have hnF : ((2 ^ k : ℕ) : F) ≠ 0 := by
      intro h
      push_cast at h
      have h2 : (2 : F) = 0 := pow_eq_zero_iff (by omega) |>.mp h
      exact hx1 (eq_one_of_pow_two_pow h2 k x hx)
    have hden : ((2 ^ k : ℕ) : F) * (x - 1) ≠ 0 :=
      mul_ne_zero hnF (sub_ne_zero.mpr hx1)
    refine ⟨hden, ?_⟩
    rw [eval_l_1, if_neg hx1, eval_zero_poly, hx, sub_self, zero_div]

/-- Witness for C5: `F = ℚ`, `n = 2 = 2^1`, `x = -1` (a second root of unity). -/
theorem eval_l_1_correct_witness :
    eval_l_1 2 (1 : ℚ) = 1 ∧
    ((-1 : ℚ) ≠ 1 → (((2 : ℕ) : ℚ) * ((-1) - 1) ≠ 0 ∧ eval_l_1 2 (-1 : ℚ) = 0)) :=
  eval_l_1_correct 2 1 (-1) (le_refl 1) (by norm_num) (by norm_num)

theorem new_evals_getD {F : Type} [Field F] (g w : F) (n_log rate_bits k : ℕ)
    (hk : k < 2 ^ rate_bits) :
    (ZeroPolyOnCoset.new g w n_log rate_bits).evals.getD k 0 =
      g ^ (2 ^ n_log) * w ^ k - 1 := by
  simp only [ZeroPolyOnCoset.new, two_adic_subgroup, List.map_map]
  rw [List.getD_eq_getElem _ _ (by simpa using hk)]
  simp

theorem new_inverses_getD {F : Type} [Field F] (g w : F) (n_log rate_bits k : ℕ)
    (hk : k < 2 ^ rate_bits) :
    (ZeroPolyOnCoset.new g w n_log rate_bits).inverses.getD k 0 =
      (g ^ (2 ^ n_log) * w ^ k - 1)⁻¹ := by
  simp only [ZeroPolyOnCoset.new, two_adic_subgroup, batch_multiplicative_inverse,
    List.map_map]
  rw [List.getD_eq_getElem _ _ (by simpa using hk)]
  simp

/-- C8: `ZeroPolyOnCoset` table discipline: the tables have length `rate`, every
access `eval(i)`/`eval_inverse(i)` reduces the index modulo `rate` (so stays in
bounds and agrees with the access at `i % rate`), and the inverse table holds
exact multiplicative inverses: `eval(i) * eval_inverse(i) = 1`, given that
`Z_H` is nonzero on the coset (the precondition of the batched-inverse pass). -/
theorem zero_poly_on_coset_tables {F : Type} [Field F] (g w : F) (n_log rate_bits : ℕ)
    (hnz : ∀ j < 2 ^ rate_bits, g ^ (2 ^ n_log) * w ^ j - 1 ≠ 0) :
    (ZeroPolyOnCoset.new g w n_log rate_bits).evals.length =
      (ZeroPolyOnCoset.new g w n_log rate_bits).rate ∧
    (ZeroPolyOnCoset.new g w n_log rate_bits).inverses.length =
      (ZeroPolyOnCoset.new g w n_log rate_bits).rate ∧
    ∀ i : ℕ,
      (ZeroPolyOnCoset.new g w n_log rate_bits).eval i =
        (ZeroPolyOnCoset.new g w n_log rate_bits).eval
          (i % (ZeroPolyOnCoset.new g w n_log rate_bits).rate) ∧
      (ZeroPolyOnCoset.new g w n_log rate_bits).eval_inverse i =
        (ZeroPolyOnCoset.new g w n_log rate_bits).eval_inverse
          (i % (ZeroPolyOnCoset.new g w n_log rate_bits).rate) ∧
      i % (ZeroPolyOnCoset.new g w n_log rate_bits).rate <
        (ZeroPolyOnCoset.new g w n_log rate_bits).rate ∧
      (ZeroPolyOnCoset.new g w n_log rate_bits).eval i *
        (ZeroPolyOnCoset.new g w n_log rate_bits).eval_inverse i = 1 := by
  have hrate : (ZeroPolyOnCoset.new g w n_log rate_bits).rate = 2 ^ rate_bits := rfl
  have hpos : 0 < 2 ^ rate_bits := pow_pos (by norm_num) rate_bits
  refine ⟨?_, ?_, ?_⟩
  · simp [ZeroPolyOnCoset.new, two_adic_subgroup]
  · simp [ZeroPolyOnCoset.new, two_adic_subgroup, batch_multiplicative_inverse]
  · intro i
    have hmod : i % 2 ^ rate_bits < 2 ^ rate_bits := Nat.mod_lt _ hpos
    refine ⟨?_, ?_, ?_, ?_⟩
    · simp [ZeroPolyOnCoset.eval, hrate, Nat.mod_mod_of_dvd i dvd_rfl]
    · simp [ZeroPolyOnCoset.eval_inverse, hrate, Nat.mod_mod_of_dvd i dvd_rfl]
    · rw [hrate]; exact hmod
    · rw [ZeroPolyOnCoset.eval, ZeroPolyOnCoset.eval_inverse, hrate,
        new_evals_getD g w n_log rate_bits _ hmod,
        new_inverses_getD g w n_log rate_bits _ hmod]
      exact mul_inv_cancel₀ (hnz _ hmod)

/-- Witness for C8: `F = ℚ`, `g = 2`, `w = -1`, `n_log = 0`, `rate_bits = 1`,
access index `i = 5` (≥ rate). -/
theorem zero_poly_on_coset_tables_witness :
    (ZeroPolyOnCoset.new (2 : ℚ) (-1) 0 1).evals.length =
      (ZeroPolyOnCoset.new (2 : ℚ) (-1) 0 1).rate ∧
    (ZeroPolyOnCoset.new (2 : ℚ) (-1) 0 1).inverses.length =
      (ZeroPolyOnCoset.new (2 : ℚ) (-1) 0 1).rate ∧
    ∀ i : ℕ,
      (ZeroPolyOnCoset.new (2 : ℚ) (-1) 0 1).eval i =
        (ZeroPolyOnCoset.new (2 : ℚ) (-1) 0 1).eval
          (i % (ZeroPolyOnCoset.new (2 : ℚ) (-1) 0 1).rate) ∧
      (ZeroPolyOnCoset.new (2 : ℚ) (-1) 0 1).eval_inverse i =
        (ZeroPolyOnCoset.new (2 : ℚ) (-1) 0 1).eval_inverse
          (i % (ZeroPolyOnCoset.new (2 : ℚ) (-1) 0 1).rate) ∧
      i % (ZeroPolyOnCoset.new (2 : ℚ) (-1) 0 1).rate <
        (ZeroPolyOnCoset.new (2 : ℚ) (-1) 0 1).rate ∧
      (ZeroPolyOnCoset.new (2 : ℚ) (-1) 0 1).eval i *
        (ZeroPolyOnCoset.new (2 : ℚ) (-1) 0 1).eval_inverse i = 1 :=
  zero_poly_on_coset_tables 2 (-1) 0 1 (by
    intro j hj
    interval_cases j <;> norm_num)

/-- C9: `ZeroPolyOnCoset::eval_l1` performs an unguarded inversion of
`n * (x - 1)`: at `x = 1` the inverted element is zero (a precondition
violation), while under the precondition `x ≠ 1` (and `n ≠ 0` in the field) the
inverted element is nonzero — the error branch is unreachable — and the result
is exactly `eval(i) * (n * (x - 1))⁻¹`. -/
theorem zero_poly_eval_l1_unguarded {F : Type} [Field F] (z : ZeroPolyOnCoset F)
    (i : ℕ) (x : F) :
    z.n * ((1 : F) - 1) = 0 ∧
    (x ≠ 1 → z.n ≠ 0 → z.n * (x - 1) ≠ 0) ∧
    z.eval_l1 i x = z.eval i * (z.n * (x - 1))⁻¹ :=
  ⟨by ring, fun hx hn => mul_ne_zero hn (sub_ne_zero.mpr hx), rfl⟩

/-- Witness for C9, over `ℚ` with `n = 2`, `x = 3`. -/
theorem zero_poly_eval_l1_unguarded_witness :
    (ZeroPolyOnCoset.mk (2 : ℚ) 1 [1] [1]).n * ((3 : ℚ) - 1) ≠ 0 :=
  (zero_poly_eval_l1_unguarded (ZeroPolyOnCoset.mk (2 : ℚ) 1 [1] [1]) 0 3).2.1
    (by norm_num) (by norm_num)

theorem flatMap_range_routed :
    ∀ n, (List.range n).flatMap
        (fun i => [5 * i, 5 * i + 1, 5 * i + 2, 5 * i + 3, 5 * i + 4]) =
      List.range (5 * n) := by
  intro n
  induction n with
  | zero => simp
  | succ n ih =>
    rw [List.range_succ, List.flatMap_append, ih, List.flatMap_singleton,
      Nat.mul_succ, List.range_add]
    rfl

theorem flatMap_range_block (L : ℕ) :
    ∀ n, (List.range n).flatMap (fun i => (List.range L).map (fun j => L * i + j)) =
      List.range (L * n) := by
  intro n
  induction n with
  | zero => simp
  | succ n ih =>
    rw [List.range_succ, List.flatMap_append, ih, List.flatMap_singleton,
      Nat.mul_succ, List.range_add]

theorem limb_index_inj {L i j i' j' : ℕ} (hj : j < L) (hj' : j' < L)
    (h : L * i + j = L * i' + j') : i = i' ∧ j = j' := by
  have hii : i = i' := by
    rcases Nat.lt_trichotomy i i' with hlt | heq | hgt
    · have h1 : L * (i + 1) ≤ L * i' := Nat.mul_le_mul_left L hlt
      have h2 : L * (i + 1) = L * i + L := by ring
      omega
    · exact heq
    · have h1 : L * (i' + 1) ≤ L * i := Nat.mul_le_mul_left L hgt
      have h2 : L * (i' + 1) = L * i' + L := by ring
      omega
  subst hii
  omega

theorem nodup_gate_wires (numOps L : ℕ) :
    ((List.range numOps).flatMap
        (fun i => [5 * i, 5 * i + 1, 5 * i + 2, 5 * i + 3, 5 * i + 4]) ++
      (List.range numOps).flatMap
        (fun i => (List.range L).map (fun j => 5 * numOps + L * i + j))).Nodup := by
  have h2 : (List.range numOps).flatMap
        (fun i => (List.range L).map (fun j => 5 * numOps + L * i + j)) =
      (List.range (L * numOps)).map (fun t => 5 * numOps + t) := by
    rw [← flatMap_range_block L numOps, List.map_flatMap]
    congr 1
    funext i
    rw [List.map_map]
    congr 1
    funext j
    simp [Nat.add_assoc]
  rw [flatMap_range_routed numOps, h2]
  apply List.Nodup.append
  · exact List.nodup_range _
  · exact List.Nodup.map (fun a b h => by omega) (List.nodup_range _)
  · intro a ha hb
    simp only [List.mem_range] at ha
    simp only [List.mem_map, List.mem_range] at hb
    omega

theorem op_wires_disjoint_generic (numOps L i i' : ℕ) (hi : i < numOps)
    (hi' : i' < numOps) (hne : i ≠ i') :
    List.Disjoint
      (5 * i :: (5 * i + 1) :: (5 * i + 2) :: (5 * i + 3) :: (5 * i + 4) ::
        (List.range L).map (fun j => 5 * numOps + L * i + j))
      (5 * i' :: (5 * i' + 1) :: (5 * i' + 2) :: (5 * i' + 3) :: (5 * i' + 4) ::
        (List.range L).map (fun j => 5 * numOps + L * i' + j)) := by
  intro a ha hb
  simp only [List.mem_cons, List.mem_map, List.mem_range] at ha hb
  rcases ha with rfl | rfl | rfl | rfl | rfl | ⟨j, hj, rfl⟩ <;>
    rcases hb with hb | hb | hb | hb | hb | ⟨j', hj', hb⟩ <;>
    try omega
  exact absurd (limb_index_inj hj' hj (by omega)).1 (Ne.symm hne)

theorem deps_written_disjoint_generic (numOps L i o1 o2 : ℕ) (hi : i < numOps)
    (ho1 : 5 * i + 3 ≤ o1 ∧ o1 ≤ 5 * i + 4) (ho2 : 5 * i + 3 ≤ o2 ∧ o2 ≤ 5 * i + 4) :
    List.Disjoint [5 * i, 5 * i + 1, 5 * i + 2]
      (o1 :: o2 :: (List.range L).map (fun j => 5 * numOps + L * i + j)) := by
  intro a ha hb
  simp only [List.mem_cons, List.mem_map, List.mem_range, List.not_mem_nil, or_false]
    at ha hb
  rcases ha with rfl | rfl | rfl <;>
    rcases hb with hb | hb | ⟨j, hj, hb⟩ <;>
    omega

/-- C10: the wire-index accessors of each gate are jointly injective: over all
ops `i < num_ops` and limb positions `j < num_limbs`, the five routed indices
`5*i .. 5*i+4` and the limb indices `5*num_ops + num_limbs*i + j` are pairwise
distinct; hence distinct ops occupy disjoint wire sets, and each generator's
declared input wires are disjoint from the output wires it writes. -/
theorem wire_layout_injective (numOps BITS : ℕ) :
    (BinaryArithmeticGate.allWires numOps BITS).Nodup ∧
    (BinarySubtractionGate.allWires numOps BITS).Nodup ∧
    (∀ i i', i < numOps → i' < numOps → i ≠ i' →
      (BinaryArithmeticGate.opWires numOps BITS i).Disjoint
        (BinaryArithmeticGate.opWires numOps BITS i')) ∧
    (∀ i i', i < numOps → i' < numOps → i ≠ i' →
      (BinarySubtractionGate.opWires numOps BITS i).Disjoint
        (BinarySubtractionGate.opWires numOps BITS i')) ∧
    (∀ i, i < numOps →
      (BinaryArithmeticGate.dependencies i).Disjoint
        (BinaryArithmeticGate.writtenWires numOps BITS i)) ∧
    (∀ i, i < numOps →
      (BinarySubtractionGate.dependencies i).Disjoint
        (BinarySubtractionGate.writtenWires numOps BITS i)) :=
  ⟨nodup_gate_wires numOps (BinaryArithmeticGate.numLimbs BITS),
    nodup_gate_wires numOps (BinarySubtractionGate.numLimbs BITS),
    fun i i' hi hi' hne =>
      op_wires_disjoint_generic numOps (BinaryArithmeticGate.numLimbs BITS) i i' hi hi' hne,
    fun i i' hi hi' hne =>
      op_wires_disjoint_generic numOps (BinarySubtractionGate.numLimbs BITS) i i' hi hi' hne,
    fun i hi =>
      deps_written_disjoint_generic numOps (BinaryArithmeticGate.numLimbs BITS) i
        (5 * i + 4) (5 * i + 3) hi (by omega) (by omega),
    fun i hi =>
      deps_written_disjoint_generic numOps (BinarySubtractionGate.numLimbs BITS) i
        (5 * i + 3) (5 * i + 4) hi (by omega) (by omega)⟩

/-- Witness for C10 at `numOps = 2`, `BITS = 8`: op 0's declared inputs are
disjoint from the wires its generator writes. -/
theorem wire_layout_injective_witness :
    (BinaryArithmeticGate.dependencies 0).Disjoint
      (BinaryArithmeticGate.writtenWires 2 8 0) ∧
    (BinarySubtractionGate.dependencies 0).Disjoint
      (BinarySubtractionGate.writtenWires 2 8 0) ∧
    (BinaryArithmeticGate.opWires 2 8 0).Disjoint (BinaryArithmeticGate.opWires 2 8 1) :=
  ⟨(wire_layout_injective 2 8).2.2.2.2.1 0 (by norm_num),
    (wire_layout_injective 2 8).2.2.2.2.2 0 (by norm_num),
    (wire_layout_injective 2 8).2.2.1 0 1 (by norm_num) (by norm_num) (by norm_num)⟩

theorem arith_eval_unfiltered_eq (R : Type) [CommRing R] (numOps BITS : ℕ) (w : ℕ → R) :
    BinaryArithmeticGate.eval_unfiltered R numOps BITS w =
      (List.range numOps).flatMap (BinaryArithmeticGate.opConstraints R numOps BITS w) := rfl

theorem arith_eval_unfiltered_base_eq (R : Type) [CommRing R] (numOps BITS : ℕ) (w : ℕ → R) :
    BinaryArithmeticGate.eval_unfiltered_base R numOps BITS w =
      (List.range numOps).flatMap (BinaryArithmeticGate.opConstraints R numOps BITS w) := rfl

theorem sub_eval_unfiltered_eq (R : Type) [CommRing R] (numOps BITS : ℕ) (w : ℕ → R) :
    BinarySubtractionGate.eval_unfiltered R numOps BITS w =
      (List.range numOps).flatMap (BinarySubtractionGate.opConstraints R numOps BITS w) := rfl

theorem sub_eval_unfiltered_base_eq (R : Type) [CommRing R] (numOps BITS : ℕ) (w : ℕ → R) :
    BinarySubtractionGate.eval_unfiltered_base R numOps BITS w =
      (List.range numOps).flatMap (BinarySubtractionGate.opConstraints R numOps BITS w) := rfl

theorem arith_loop_cs_length (R : Type) [CommRing R] (numOps BITS i : ℕ) (w : ℕ → R) :
    ∀ (l : List ℕ) (st : R × R × List R),
      ((l.foldl (BinaryArithmeticGate.limbLoopStep R numOps BITS i w) st).2.2).length =
        st.2.2.length + l.length := by
  intro l
  induction l with
  | nil => intro st; simp
  | cons j l ih =>
    intro st
    rw [List.foldl_cons, ih]
    simp only [BinaryArithmeticGate.limbLoopStep]
    split_ifs <;> simp <;> omega

theorem sub_loop_cs_length (R : Type) [CommRing R] (numOps BITS i : ℕ) (w : ℕ → R) :
    ∀ (l : List ℕ) (st : R × List R),
      ((l.foldl (BinarySubtractionGate.limbLoopStep R numOps BITS i w) st).2).length =
        st.2.length + l.length := by
  intro l
  induction l with
  | nil => intro st; simp
  | cons j l ih =>
    intro st
    rw [List.foldl_cons, ih]
    simp only [BinarySubtractionGate.limbLoopStep]
    simp
    omega

theorem arith_opConstraints_length (R : Type) [CommRing R] (numOps BITS i : ℕ) (w : ℕ → R) :
    (BinaryArithmeticGate.opConstraints R numOps BITS w i).length =
      3 + BinaryArithmeticGate.numLimbs BITS := by
  simp only [BinaryArithmeticGate.opConstraints]
  rw [List.length_cons, List.length_append, arith_loop_cs_length]
  simp
  omega

theorem sub_opConstraints_length (R : Type) [CommRing R] (numOps BITS i : ℕ) (w : ℕ → R) :
    (BinarySubtractionGate.opConstraints R numOps BITS w i).length =
      BinarySubtractionGate.numLimbs BITS + 3 := by
  simp only [BinarySubtractionGate.opConstraints]
  rw [List.length_cons, List.length_append, sub_loop_cs_length]
  simp

theorem arith_eval_length (R : Type) [CommRing R] (numOps BITS : ℕ) (w : ℕ → R) :
    (BinaryArithmeticGate.eval_unfiltered R numOps BITS w).length =
      BinaryArithmeticGate.num_constraints numOps BITS := by
  rw [arith_eval_unfiltered_eq, List.length_flatMap]
  have hmap : (List.range numOps).map
      (List.length ∘ BinaryArithmeticGate.opConstraints R numOps BITS w) =
      (List.range numOps).map (fun _ => 3 + BinaryArithmeticGate.numLimbs BITS) :=
    List.map_congr_left (fun i _ => arith_opConstraints_length R numOps BITS i w)
  rw [hmap, List.map_const', List.sum_replicate, List.length_range]
  simp [BinaryArithmeticGate.num_constraints, Nat.mul_comm]

theorem sub_eval_length (R : Type) [CommRing R] (numOps BITS : ℕ) (w : ℕ → R) :
    (BinarySubtractionGate.eval_unfiltered R numOps BITS w).length =
      BinarySubtractionGate.num_constraints numOps BITS := by
  rw [sub_eval_unfiltered_eq, List.length_flatMap]
  have hmap : (List.range numOps).map
      (List.length ∘ BinarySubtractionGate.opConstraints R numOps BITS w) =
      (List.range numOps).map (fun _ => BinarySubtractionGate.numLimbs BITS + 3) :=
    List.map_congr_left (fun i _ => sub_opConstraints_length R numOps BITS i w)
  rw [hmap, List.map_const', List.sum_replicate, List.length_range]
  simp [BinarySubtractionGate.num_constraints, Nat.mul_comm]

theorem limb_wire_lt (numOps L i j : ℕ) (hi : i < numOps) (hj : j < L) :
    5 * numOps + L * i + j < numOps * (5 + L) := by
  have h1 : L * (i + 1) ≤ L * numOps := Nat.mul_le_mul_left L hi
  have h2 : L * (i + 1) = L * i + L := by ring
  have h3 : numOps * (5 + L) = 5 * numOps + L * numOps := by ring
  omega

theorem arith_loop_congr (R : Type) [CommRing R] (numOps BITS i : ℕ) (w w' : ℕ → R) :
    ∀ l : List ℕ,
      (∀ j ∈ l, w (BinaryArithmeticGate.wire_ith_output_jth_limb numOps BITS i j) =
        w' (BinaryArithmeticGate.wire_ith_output_jth_limb numOps BITS i j)) →
      ∀ st, l.foldl (BinaryArithmeticGate.limbLoopStep R numOps BITS i w) st =
        l.foldl (BinaryArithmeticGate.limbLoopStep R numOps BITS i w') st := by
  intro l
  induction l with
  | nil => intro _ st; rfl
  | cons j l ih =>
    intro h st
    have hstep : BinaryArithmeticGate.limbLoopStep R numOps BITS i w st j =
        BinaryArithmeticGate.limbLoopStep R numOps BITS i w' st j := by
      simp only [BinaryArithmeticGate.limbLoopStep, h j (by simp)]
    rw [List.foldl_cons, List.foldl_cons, hstep]
    exact ih (fun j' hj' => h j' (by simp [hj'])) _

theorem sub_loop_congr (R : Type) [CommRing R] (numOps BITS i : ℕ) (w w' : ℕ → R) :
    ∀ l : List ℕ,
      (∀ j ∈ l, w (BinarySubtractionGate.wire_ith_output_jth_limb numOps BITS i j) =
        w' (BinarySubtractionGate.wire_ith_output_jth_limb numOps BITS i j)) →
      ∀ st, l.foldl (BinarySubtractionGate.limbLoopStep R numOps BITS i w) st =
        l.foldl (BinarySubtractionGate.limbLoopStep R numOps BITS i w') st := by
  intro l
  induction l with
  | nil => intro _ st; rfl
  | cons j l ih =>
    intro h st
    have hstep : BinarySubtractionGate.limbLoopStep R numOps BITS i w st j =
        BinarySubtractionGate.limbLoopStep R numOps BITS i w' st j := by
      simp only [BinarySubtractionGate.limbLoopStep, h j (by simp)]
    rw [List.foldl_cons, List.foldl_cons, hstep]
    exact ih (fun j' hj' => h j' (by simp [hj'])) _

theorem arith_opConstraints_congr (R : Type) [CommRing R] (numOps BITS i : ℕ)
    (w w' : ℕ → R) (hi : i < numOps)
    (h : ∀ k, k < BinaryArithmeticGate.num_wires numOps BITS → w k = w' k) :
    BinaryArithmeticGate.opConstraints R numOps BITS w i =
      BinaryArithmeticGate.opConstraints R numOps BITS w' i := by
  have hw : 5 * numOps ≤ numOps * (5 + BinaryArithmeticGate.numLimbs BITS) := by
    have h3 : numOps * (5 + BinaryArithmeticGate.numLimbs BITS) =
        5 * numOps + BinaryArithmeticGate.numLimbs BITS * numOps := by ring
    omega
  have hloop := arith_loop_congr R numOps BITS i w w'
    (List.range (BinaryArithmeticGate.numLimbs BITS)).reverse
    (fun j hj => h _ (limb_wire_lt numOps (BinaryArithmeticGate.numLimbs BITS) i j hi
      (by simpa using hj)))
    (0, 0, [])
  simp only [BinaryArithmeticGate.opConstraints,
    h _ (show BinaryArithmeticGate.wire_ith_multiplicand_0 i <
      BinaryArithmeticGate.num_wires numOps BITS by
        simp only [BinaryArithmeticGate.wire_ith_multiplicand_0,
          BinaryArithmeticGate.num_wires]; omega),
    h _ (show BinaryArithmeticGate.wire_ith_multiplicand_1 i <
      BinaryArithmeticGate.num_wires numOps BITS by
        simp only [BinaryArithmeticGate.wire_ith_multiplicand_1,
          BinaryArithmeticGate.num_wires]; omega),
    h _ (show BinaryArithmeticGate.wire_ith_addend i <
      BinaryArithmeticGate.num_wires numOps BITS by
        simp only [BinaryArithmeticGate.wire_ith_addend,
          BinaryArithmeticGate.num_wires]; omega),
    h _ (show BinaryArithmeticGate.wire_ith_output_low_half i <
      BinaryArithmeticGate.num_wires numOps BITS by
        simp only [BinaryArithmeticGate.wire_ith_output_low_half,
          BinaryArithmeticGate.num_wires]; omega),
    h _ (show BinaryArithmeticGate.wire_ith_output_high_half i <
      BinaryArithmeticGate.num_wires numOps BITS by
        simp only [BinaryArithmeticGate.wire_ith_output_high_half,
          BinaryArithmeticGate.num_wires]; omega),
    hloop]

theorem sub_opConstraints_congr (R : Type) [CommRing R] (numOps BITS i : ℕ)
    (w w' : ℕ → R) (hi : i < numOps)
    (h : ∀ k, k < BinarySubtractionGate.num_wires numOps BITS → w k = w' k) :
    BinarySubtractionGate.opConstraints R numOps BITS w i =
      BinarySubtractionGate.opConstraints R numOps BITS w' i := by
  have hw : 5 * numOps ≤ numOps * (5 + BinarySubtractionGate.numLimbs BITS) := by
    have h3 : numOps * (5 + BinarySubtractionGate.numLimbs BITS) =
        5 * numOps + BinarySubtractionGate.numLimbs BITS * numOps := by ring
    omega
  have hloop := sub_loop_congr R numOps BITS i w w'
    (List.range (BinarySubtractionGate.numLimbs BITS)).reverse
    (fun j hj => h _ (limb_wire_lt numOps (BinarySubtractionGate.numLimbs BITS) i j hi
      (by simpa using hj)))
    (0, [])
  simp only [BinarySubtractionGate.opConstraints,
    h _ (show BinarySubtractionGate.wire_ith_input_x i <
      BinarySubtractionGate.num_wires numOps BITS by
        simp only [BinarySubtractionGate.wire_ith_input_x,
          BinarySubtractionGate.num_wires]; omega),
    h _ (show BinarySubtractionGate.wire_ith_input_y i <
      BinarySubtractionGate.num_wires numOps BITS by
        simp only [BinarySubtractionGate.wire_ith_input_y,
          BinarySubtractionGate.num_wires]; omega),
    h _ (show BinarySubtractionGate.wire_ith_input_borrow i <
      BinarySubtractionGate.num_wires numOps BITS by
        simp only [BinarySubtractionGate.wire_ith_input_borrow,
          BinarySubtractionGate.num_wires]; omega),
    h _ (show BinarySubtractionGate.wire_ith_output_result i <
      BinarySubtractionGate.num_wires numOps BITS by
        simp only [BinarySubtractionGate.wire_ith_output_result,
          BinarySubtractionGate.num_wires]; omega),
    h _ (show BinarySubtractionGate.wire_ith_output_borrow i <
      BinarySubtractionGate.num_wires numOps BITS by
        simp only [BinarySubtractionGate.wire_ith_output_borrow,
          BinarySubtractionGate.num_wires]; omega),
    hloop]

theorem arith_eval_congr (R : Type) [CommRing R] (numOps BITS : ℕ) (w w' : ℕ → R)
    (h : ∀ k, k < BinaryArithmeticGate.num_wires numOps BITS → w k = w' k) :
    BinaryArithmeticGate.eval_unfiltered R numOps BITS w =
      BinaryArithmeticGate.eval_unfiltered R numOps BITS w' := by
  rw [arith_eval_unfiltered_eq, arith_eval_unfiltered_eq]
  exact List.flatMap_congr (fun i hi =>
    arith_opConstraints_congr R numOps BITS i w w' (List.mem_range.mp hi) h)

theorem sub_eval_congr (R : Type) [CommRing R] (numOps BITS : ℕ) (w w' : ℕ → R)
    (h : ∀ k, k < BinarySubtractionGate.num_wires numOps BITS → w k = w' k) :
    BinarySubtractionGate.eval_unfiltered R numOps BITS w =
      BinarySubtractionGate.eval_unfiltered R numOps BITS w' := by
  rw [sub_eval_unfiltered_eq, sub_eval_unfiltered_eq]
  exact List.flatMap_congr (fun i hi =>
    sub_opConstraints_congr R numOps BITS i w w' (List.mem_range.mp hi) h)

theorem arith_writtenWires_lt (numOps BITS i : ℕ) (hi : i < numOps) :
    ∀ k ∈ BinaryArithmeticGate.writtenWires numOps BITS i,
      k < BinaryArithmeticGate.num_wires numOps BITS := by
  intro k hk
  have hw : numOps * (5 + BinaryArithmeticGate.numLimbs BITS) =
      5 * numOps + BinaryArithmeticGate.numLimbs BITS * numOps := by ring
  simp only [BinaryArithmeticGate.writtenWires, List.mem_cons, List.mem_map,
    List.mem_range, BinaryArithmeticGate.wire_ith_output_high_half,
    BinaryArithmeticGate.wire_ith_output_low_half,
    BinaryArithmeticGate.wire_ith_output_jth_limb] at hk
  simp only [BinaryArithmeticGate.num_wires]
  rcases hk with rfl | rfl | ⟨j, hj, rfl⟩
  · omega
  · omega
  · have := limb_wire_lt numOps (BinaryArithmeticGate.numLimbs BITS) i j hi hj
    omega

theorem sub_writtenWires_lt (numOps BITS i : ℕ) (hi : i < numOps) :
    ∀ k ∈ BinarySubtractionGate.writtenWires numOps BITS i,
      k < BinarySubtractionGate.num_wires numOps BITS := by
  intro k hk
  simp only [BinarySubtractionGate.writtenWires, List.mem_cons, List.mem_map,
    List.mem_range, BinarySubtractionGate.wire_ith_output_result,
    BinarySubtractionGate.wire_ith_output_borrow,
    BinarySubtractionGate.wire_ith_output_jth_limb] at hk
  simp only [BinarySubtractionGate.num_wires]
  have hw : numOps * (5 + BinarySubtractionGate.numLimbs BITS) =
      5 * numOps + BinarySubtractionGate.numLimbs BITS * numOps := by ring
  rcases hk with rfl | rfl | ⟨j, hj, rfl⟩
  · omega
  · omega
  · have := limb_wire_lt numOps (BinarySubtractionGate.numLimbs BITS) i j hi hj
    omega

/-- C7: for both gates and every configuration, `eval_unfiltered` and
`eval_unfiltered_base` return exactly `num_constraints() = num_ops * (num_limbs + 3)`
values; both evaluators read only local wires with index `< num_wires()`
(assignments agreeing below `num_wires()` give identical constraint vectors);
and the generators write only wires with index `< num_wires()`. -/
theorem gate_size_and_access_consistency :
    (∀ (R : Type) [CommRing R] (numOps BITS : ℕ) (w : ℕ → R),
      (BinaryArithmeticGate.eval_unfiltered R numOps BITS w).length =
        BinaryArithmeticGate.num_constraints numOps BITS) ∧
    (∀ (R : Type) [CommRing R] (numOps BITS : ℕ) (w : ℕ → R),
      (BinaryArithmeticGate.eval_unfiltered_base R numOps BITS w).length =
        BinaryArithmeticGate.num_constraints numOps BITS) ∧
    (∀ (R : Type) [CommRing R] (numOps BITS : ℕ) (w : ℕ → R),
      (BinarySubtractionGate.eval_unfiltered R numOps BITS w).length =
        BinarySubtractionGate.num_constraints numOps BITS) ∧
    (∀ (R : Type) [CommRing R] (numOps BITS : ℕ) (w : ℕ → R),
      (BinarySubtractionGate.eval_unfiltered_base R numOps BITS w).length =
        BinarySubtractionGate.num_constraints numOps BITS) ∧
    (∀ (R : Type) [CommRing R] (numOps BITS : ℕ) (w w' : ℕ → R),
      (∀ k, k < BinaryArithmeticGate.num_wires numOps BITS → w k = w' k) →
      BinaryArithmeticGate.eval_unfiltered R numOps BITS w =
        BinaryArithmeticGate.eval_unfiltered R numOps BITS w') ∧
    (∀ (R : Type) [CommRing R] (numOps BITS : ℕ) (w w' : ℕ → R),
      (∀ k, k < BinaryArithmeticGate.num_wires numOps BITS → w k = w' k) →
      BinaryArithmeticGate.eval_unfiltered_base R numOps BITS w =
        BinaryArithmeticGate.eval_unfiltered_base R numOps BITS w') ∧
    (∀ (R : Type) [CommRing R] (numOps BITS : ℕ) (w w' : ℕ → R),
      (∀ k, k < BinarySubtractionGate.num_wires numOps BITS → w k = w' k) →
      BinarySubtractionGate.eval_unfiltered R numOps BITS w =
        BinarySubtractionGate.eval_unfiltered R numOps BITS w') ∧
    (∀ (R : Type) [CommRing R] (numOps BITS : ℕ) (w w' : ℕ → R),
      (∀ k, k < BinarySubtractionGate.num_wires numOps BITS → w k = w' k) →
      BinarySubtractionGate.eval_unfiltered_base R numOps BITS w =
        BinarySubtractionGate.eval_unfiltered_base R numOps BITS w') ∧
    (∀ numOps BITS i, i < numOps →
      ∀ k ∈ BinaryArithmeticGate.writtenWires numOps BITS i,
        k < BinaryArithmeticGate.num_wires numOps BITS) ∧
    (∀ numOps BITS i, i < numOps →
      ∀ k ∈ BinarySubtractionGate.writtenWires numOps BITS i,
        k < BinarySubtractionGate.num_wires numOps BITS) := by
  refine ⟨?_, ?_, ?_, ?_, ?_, ?_, ?_, ?_, ?_, ?_⟩
  · intro R _ numOps BITS w
    exact arith_eval_length R numOps BITS w
  · intro R _ numOps BITS w
    rw [arith_eval_unfiltered_base_eq, ← arith_eval_unfiltered_eq]
    exact arith_eval_length R numOps BITS w
  · intro R _ numOps BITS w
    exact sub_eval_length R numOps BITS w
  · intro R _ numOps BITS w
    rw [sub_eval_unfiltered_base_eq, ← sub_eval_unfiltered_eq]
    exact sub_eval_length R numOps BITS w
  · intro R _ numOps BITS w w' h
    exact arith_eval_congr R numOps BITS w w' h
  · intro R _ numOps BITS w w' h
    rw [arith_eval_unfiltered_base_eq, ← arith_eval_unfiltered_eq,
      arith_eval_unfiltered_base_eq, ← arith_eval_unfiltered_eq]
    exact arith_eval_congr R numOps BITS w w' h
  · intro R _ numOps BITS w w' h
    exact sub_eval_congr R numOps BITS w w' h
  · intro R _ numOps BITS w w' h
    rw [sub_eval_unfiltered_base_eq, ← sub_eval_unfiltered_eq,
      sub_eval_unfiltered_base_eq, ← sub_eval_unfiltered_eq]
    exact sub_eval_congr R numOps BITS w w' h
  · exact arith_writtenWires_lt
  · exact sub_writtenWires_lt

/-- Witness for C7: at `numOps = 1`, `BITS = 8`, op 0's highest written wire is
within `num_wires`, and two assignments agreeing on all wires give the same
constraint vector over `ℤ`. -/
theorem gate_size_and_access_consistency_witness :
    12 < BinaryArithmeticGate.num_wires 1 8 ∧
    8 < BinarySubtractionGate.num_wires 1 8 ∧
    BinaryArithmeticGate.eval_unfiltered ℤ 1 8 (fun _ => 0) =
      BinaryArithmeticGate.eval_unfiltered ℤ 1 8 (fun k => if k < 13 then 0 else 1) :=
  ⟨gate_size_and_access_consistency.2.2.2.2.2.2.2.2.1 1 8 0 (by norm_num) 12 (by decide),
    gate_size_and_access_consistency.2.2.2.2.2.2.2.2.2 1 8 0 (by norm_num) 8 (by decide),
    gate_size_and_access_consistency.2.2.2.2.1 ℤ 1 8 _ _ (by
      intro k hk
      have hk13 : k < 13 := hk
      simp [hk13])⟩

theorem prod_map_hom {F E : Type} [CommRing F] [CommRing E] (φ : F →+* E) (t : F) (n : ℕ) :
    φ (((List.range n).map (fun x => t - ((x : ℕ) : F))).prod) =
      ((List.range n).map (fun x => φ t - ((x : ℕ) : E))).prod := by
  rw [map_list_prod, List.map_map]
  refine congrArg List.prod (List.map_congr_left ?_)
  intro x _
  simp

theorem arith_step_map {F E : Type} [CommRing F] [CommRing E] (φ : F →+* E)
    (numOps BITS i j : ℕ) (w : ℕ → F) (st : F × F × List F) :
    BinaryArithmeticGate.limbLoopStep E numOps BITS i (fun k => φ (w k))
      (φ st.1, φ st.2.1, st.2.2.map φ) j =
    (φ ((BinaryArithmeticGate.limbLoopStep F numOps BITS i w) st j).1,
     φ ((BinaryArithmeticGate.limbLoopStep F numOps BITS i w) st j).2.1,
     (((BinaryArithmeticGate.limbLoopStep F numOps BITS i w) st j).2.2).map φ) := by
  simp only [BinaryArithmeticGate.limbLoopStep]
  split_ifs with hj <;>
    simp [map_add, map_mul, map_natCast, map_pow, map_ofNat, prod_map_hom, List.map_append]

theorem arith_loop_map {F E : Type} [CommRing F] [CommRing E] (φ : F →+* E)
    (numOps BITS i : ℕ) (w : ℕ → F) :
    ∀ (l : List ℕ) (st : F × F × List F),
      l.foldl (BinaryArithmeticGate.limbLoopStep E numOps BITS i (fun k => φ (w k)))
        (φ st.1, φ st.2.1, st.2.2.map φ) =
      (φ (l.foldl (BinaryArithmeticGate.limbLoopStep F numOps BITS i w) st).1,
       φ (l.foldl (BinaryArithmeticGate.limbLoopStep F numOps BITS i w) st).2.1,
       ((l.foldl (BinaryArithmeticGate.limbLoopStep F numOps BITS i w) st).2.2).map φ) := by
  intro l
  induction l with
  | nil => intro st; rfl
  | cons j l ih =>
    intro st
    rw [List.foldl_cons, List.foldl_cons, arith_step_map]
    exact ih (BinaryArithmeticGate.limbLoopStep F numOps BITS i w st j)

theorem sub_step_map {F E : Type} [CommRing F] [CommRing E] (φ : F →+* E)
    (numOps BITS i j : ℕ) (w : ℕ → F) (st : F × List F) :
    BinarySubtractionGate.limbLoopStep E numOps BITS i (fun k => φ (w k))
      (φ st.1, st.2.map φ) j =
    (φ ((BinarySubtractionGate.limbLoopStep F numOps BITS i w) st j).1,
     (((BinarySubtractionGate.limbLoopStep F numOps BITS i w) st j).2).map φ) := by
  simp only [BinarySubtractionGate.limbLoopStep]
  simp [map_add, map_mul, map_natCast, map_pow, map_ofNat, prod_map_hom, List.map_append]

theorem sub_loop_map {F E : Type} [CommRing F] [CommRing E] (φ : F →+* E)
    (numOps BITS i : ℕ) (w : ℕ → F) :
    ∀ (l : List ℕ) (st : F × List F),
      l.foldl (BinarySubtractionGate.limbLoopStep E numOps BITS i (fun k => φ (w k)))
        (φ st.1, st.2.map φ) =
      (φ (l.foldl (BinarySubtractionGate.limbLoopStep F numOps BITS i w) st).1,
       ((l.foldl (BinarySubtractionGate.limbLoopStep F numOps BITS i w) st).2).map φ) := by
  intro l
  induction l with
  | nil => intro st; rfl
  | cons j l ih =>
    intro st
    rw [List.foldl_cons, List.foldl_cons, sub_step_map]
    exact ih (BinarySubtractionGate.limbLoopStep F numOps BITS i w st j)

theorem arith_opConstraints_map {F E : Type} [CommRing F] [CommRing E] (φ : F →+* E)
    (numOps BITS i : ℕ) (w : ℕ → F) :
    (BinaryArithmeticGate.opConstraints F numOps BITS w i).map φ =
      BinaryArithmeticGate.opConstraints E numOps BITS (fun k => φ (w k)) i := by
  have hloop := arith_loop_map φ numOps BITS i w
    (List.range (BinaryArithmeticGate.numLimbs BITS)).reverse (0, 0, [])
  simp only [map_zero, List.map_nil] at hloop
  simp only [BinaryArithmeticGate.opConstraints, hloop]
  simp [List.map_append, map_sub, map_add, map_mul, map_natCast, map_pow, map_ofNat]

theorem sub_opConstraints_map {F E : Type} [CommRing F] [CommRing E] (φ : F →+* E)
    (numOps BITS i : ℕ) (w : ℕ → F) :
    (BinarySubtractionGate.opConstraints F numOps BITS w i).map φ =
      BinarySubtractionGate.opConstraints E numOps BITS (fun k => φ (w k)) i := by
  have hloop := sub_loop_map φ numOps BITS i w
    (List.range (BinarySubtractionGate.numLimbs BITS)).reverse (0, [])
  simp only [map_zero, List.map_nil] at hloop
  simp only [BinarySubtractionGate.opConstraints, hloop]
  simp [List.map_append, map_sub, map_add, map_mul, map_one, map_natCast, map_pow, map_ofNat]

theorem arith_eval_map {F E : Type} [CommRing F] [CommRing E] (φ : F →+* E)
    (numOps BITS : ℕ) (w : ℕ → F) :
    (BinaryArithmeticGate.eval_unfiltered_base F numOps BITS w).map φ =
      BinaryArithmeticGate.eval_unfiltered E numOps BITS (fun k => φ (w k)) := by
  rw [arith_eval_unfiltered_base_eq, arith_eval_unfiltered_eq, List.map_flatMap]
  exact List.flatMap_congr (fun i _ => arith_opConstraints_map φ numOps BITS i w)

theorem sub_eval_map {F E : Type} [CommRing F] [CommRing E] (φ : F →+* E)
    (numOps BITS : ℕ) (w : ℕ → F) :
    (BinarySubtractionGate.eval_unfiltered_base F numOps BITS w).map φ =
      BinarySubtractionGate.eval_unfiltered E numOps BITS (fun k => φ (w k)) := by
  rw [sub_eval_unfiltered_base_eq, sub_eval_unfiltered_eq, List.map_flatMap]
  exact List.flatMap_congr (fun i _ => sub_opConstraints_map φ numOps BITS i w)

/-- C3: for both gates, `eval_unfiltered_base` and `eval_unfiltered` compute the
same algebraic function: for every assignment of base-field values to the wires
and every ring embedding `φ` of the base field into the extension, running
`eval_unfiltered` on the embedded wire values returns exactly the embeddings of
the values `eval_unfiltered_base` returns, in the same order. -/
theorem base_extension_evaluators_agree (F E : Type) [CommRing F] [CommRing E]
    (φ : F →+* E) (numOps BITS : ℕ) (w : ℕ → F) :
    (BinaryArithmeticGate.eval_unfiltered_base F numOps BITS w).map φ =
      BinaryArithmeticGate.eval_unfiltered E numOps BITS (fun k => φ (w k)) ∧
    (BinarySubtractionGate.eval_unfiltered_base F numOps BITS w).map φ =
      BinarySubtractionGate.eval_unfiltered E numOps BITS (fun k => φ (w k)) :=
  ⟨arith_eval_map φ numOps BITS w, sub_eval_map φ numOps BITS w⟩

theorem limbFold_append_singleton {R : Type} [CommSemiring R] (base a : R) (l : List R) :
    limbFold base (l ++ [a]) = limbFold base l + base ^ l.length * a := by
  induction l with
  | nil => simp [limbFold]
  | cons d l ih =>
    rw [List.cons_append, limbFold_cons, limbFold_cons, ih, List.length_cons]
    ring

theorem arith_loop_high_phase (R : Type) [CommRing R] (numOps BITS i : ℕ) (w : ℕ → R) :
    ∀ (m s : ℕ), BinaryArithmeticGate.numLimbs BITS / 2 ≤ s →
      ∀ (lo hi : R) (cs : List R),
      ((List.range' s m).reverse).foldl
          (BinaryArithmeticGate.limbLoopStep R numOps BITS i w) (lo, hi, cs) =
        (lo,
         ((2 ^ limbBits : ℕ) : R) ^ m * hi +
           limbFold ((2 ^ limbBits : ℕ) : R) ((List.range' s m).map (fun j =>
             w (BinaryArithmeticGate.wire_ith_output_jth_limb numOps BITS i j))),
         cs ++ ((List.range' s m).reverse).map (fun j =>
           ((List.range (2 ^ limbBits)).map (fun x =>
             w (BinaryArithmeticGate.wire_ith_output_jth_limb numOps BITS i j) -
               ((x : ℕ) : R))).prod)) := by
  intro m
  induction m with
  | zero =>
    intro s hs lo hi cs
    simp [limbFold]
  | succ m ih =>
    intro s hs lo hi cs
    rw [List.range'_1_concat, List.reverse_append, List.reverse_singleton,
      List.singleton_append, List.foldl_cons]
    have hstep : BinaryArithmeticGate.limbLoopStep R numOps BITS i w (lo, hi, cs) (s + m) =
        (lo,
         ((2 ^ limbBits : ℕ) : R) * hi +
           w (BinaryArithmeticGate.wire_ith_output_jth_limb numOps BITS i (s + m)),
         cs ++ [((List.range (2 ^ limbBits)).map (fun x =>
           w (BinaryArithmeticGate.wire_ith_output_jth_limb numOps BITS i (s + m)) -
             ((x : ℕ) : R))).prod]) := by
      simp only [BinaryArithmeticGate.limbLoopStep]
      rw [if_neg (by omega)]
    rw [hstep, ih s hs]
    refine congrArg₂ Prod.mk rfl (congrArg₂ Prod.mk ?_ ?_)
    · rw [List.map_append, List.map_singleton, limbFold_append_singleton,
        List.length_map, List.length_range']
      ring
    · simp [List.append_assoc]

theorem arith_loop_low_phase (R : Type) [CommRing R] (numOps BITS i : ℕ) (w : ℕ → R) :
    ∀ (m : ℕ), m ≤ BinaryArithmeticGate.numLimbs BITS / 2 →
      ∀ (lo hi : R) (cs : List R),
      ((List.range m).reverse).foldl
          (BinaryArithmeticGate.limbLoopStep R numOps BITS i w) (lo, hi, cs) =
        (((2 ^ limbBits : ℕ) : R) ^ m * lo +
           limbFold ((2 ^ limbBits : ℕ) : R) ((List.range m).map (fun j =>
             w (BinaryArithmeticGate.wire_ith_output_jth_limb numOps BITS i j))),
         hi,
         cs ++ ((List.range m).reverse).map (fun j =>
           ((List.range (2 ^ limbBits)).map (fun x =>
             w (BinaryArithmeticGate.wire_ith_output_jth_limb numOps BITS i j) -
               ((x : ℕ) : R))).prod)) := by
  intro m
  induction m with
  | zero =>
    intro _ lo hi cs
    simp [limbFold]
  | succ m ih =>
    intro hm lo hi cs
    rw [List.range_succ, List.reverse_append, List.reverse_singleton,
      List.singleton_append, List.foldl_cons]
    have hstep : BinaryArithmeticGate.limbLoopStep R numOps BITS i w (lo, hi, cs) m =
        (((2 ^ limbBits : ℕ) : R) * lo +
           w (BinaryArithmeticGate.wire_ith_output_jth_limb numOps BITS i m),
         hi,
         cs ++ [((List.range (2 ^ limbBits)).map (fun x =>
           w (BinaryArithmeticGate.wire_ith_output_jth_limb numOps BITS i m) -
             ((x : ℕ) : R))).prod]) := by
      simp only [BinaryArithmeticGate.limbLoopStep]
      rw [if_pos (by omega)]
    rw [hstep, ih (by omega)]
    refine congrArg₂ Prod.mk ?_ (congrArg₂ Prod.mk rfl ?_)
    · rw [List.map_append, List.map_singleton, limbFold_append_singleton,
        List.length_map, List.length_range]
      ring
    · simp [List.append_assoc]

theorem arith_loop_full (R : Type) [CommRing R] (numOps BITS i : ℕ) (w : ℕ → R)
    (heven : BinaryArithmeticGate.numLimbs BITS =
      BinaryArithmeticGate.numLimbs BITS / 2 + BinaryArithmeticGate.numLimbs BITS / 2) :
    ((List.range (BinaryArithmeticGate.numLimbs BITS)).reverse).foldl
        (BinaryArithmeticGate.limbLoopStep R numOps BITS i w) (0, 0, []) =
      (limbFold ((2 ^ limbBits : ℕ) : R)
         ((List.range (BinaryArithmeticGate.numLimbs BITS / 2)).map (fun j =>
           w (BinaryArithmeticGate.wire_ith_output_jth_limb numOps BITS i j))),
       limbFold ((2 ^ limbBits : ℕ) : R)
         ((List.range' (BinaryArithmeticGate.numLimbs BITS / 2)
             (BinaryArithmeticGate.numLimbs BITS / 2)).map (fun j =>
           w (BinaryArithmeticGate.wire_ith_output_jth_limb numOps BITS i j))),
       ((List.range (BinaryArithmeticGate.numLimbs BITS)).reverse).map (fun j =>
         ((List.range (2 ^ limbBits)).map (fun x =>
           w (BinaryArithmeticGate.wire_ith_output_jth_limb numOps BITS i j) -
             ((x : ℕ) : R))).prod)) := by
  rw [heven, List.range_add]
  have hr : (List.range (BinaryArithmeticGate.numLimbs BITS / 2)).map
      (fun j => BinaryArithmeticGate.numLimbs BITS / 2 + j) =
      List.range' (BinaryArithmeticGate.numLimbs BITS / 2)
        (BinaryArithmeticGate.numLimbs BITS / 2) :=
    (List.range'_eq_map_range _ _).symm
  rw [hr, List.reverse_append, List.foldl_append,
    arith_loop_high_phase R numOps BITS i w _ _ (le_refl _),
    arith_loop_low_phase R numOps BITS i w _ (le_refl _), List.map_append]
  have hhalf : (BinaryArithmeticGate.numLimbs BITS / 2 +
      BinaryArithmeticGate.numLimbs BITS / 2) / 2 = BinaryArithmeticGate.numLimbs BITS / 2 := by
    omega
  simp [hhalf]

theorem arith_witness_m0 (numOps BITS : ℕ) (m0s m1s ads : ℕ → Goldilocks) (i : ℕ)
    (hi : i < numOps) :
    BinaryArithmeticGate.witnessAssignment numOps BITS m0s m1s ads
      (BinaryArithmeticGate.wire_ith_multiplicand_0 i) = m0s i := by
  simp only [BinaryArithmeticGate.witnessAssignment,
    BinaryArithmeticGate.wire_ith_multiplicand_0]
  rw [if_pos (by omega)]
  have hd : 5 * i / 5 = i := by omega
  have hm : 5 * i % 5 = 0 := by omega
  simp [hd, hm]

theorem arith_witness_m1 (numOps BITS : ℕ) (m0s m1s ads : ℕ → Goldilocks) (i : ℕ)
    (hi : i < numOps) :
    BinaryArithmeticGate.witnessAssignment numOps BITS m0s m1s ads
      (BinaryArithmeticGate.wire_ith_multiplicand_1 i) = m1s i := by
  simp only [BinaryArithmeticGate.witnessAssignment,
    BinaryArithmeticGate.wire_ith_multiplicand_1]
  rw [if_pos (by omega)]
  have hd : (5 * i + 1) / 5 = i := by omega
  have hm : (5 * i + 1) % 5 = 1 := by omega
  simp [hd, hm]

theorem arith_witness_addend (numOps BITS : ℕ) (m0s m1s ads : ℕ → Goldilocks) (i : ℕ)
    (hi : i < numOps) :
    BinaryArithmeticGate.witnessAssignment numOps BITS m0s m1s ads
      (BinaryArithmeticGate.wire_ith_addend i) = ads i := by
  simp only [BinaryArithmeticGate.witnessAssignment, BinaryArithmeticGate.wire_ith_addend]
  rw [if_pos (by omega)]
  have hd : (5 * i + 2) / 5 = i := by omega
  have hm : (5 * i + 2) % 5 = 2 := by omega
  simp [hd, hm]

theorem arith_witness_low (numOps BITS : ℕ) (m0s m1s ads : ℕ → Goldilocks) (i : ℕ)
    (hi : i < numOps) :
    BinaryArithmeticGate.witnessAssignment numOps BITS m0s m1s ads
      (BinaryArithmeticGate.wire_ith_output_low_half i) =
      (BinaryArithmeticGate.run_once BITS (m0s i) (m1s i) (ads i)).1.2 := by
  simp only [BinaryArithmeticGate.witnessAssignment,
    BinaryArithmeticGate.wire_ith_output_low_half]
  rw [if_pos (by omega)]
  have hd : (5 * i + 3) / 5 = i := by omega
  have hm : (5 * i + 3) % 5 = 3 := by omega
  simp [hd, hm]

theorem arith_witness_high (numOps BITS : ℕ) (m0s m1s ads : ℕ → Goldilocks) (i : ℕ)
    (hi : i < numOps) :
    BinaryArithmeticGate.witnessAssignment numOps BITS m0s m1s ads
      (BinaryArithmeticGate.wire_ith_output_high_half i) =
      (BinaryArithmeticGate.run_once BITS (m0s i) (m1s i) (ads i)).1.1 := by
  simp only [BinaryArithmeticGate.witnessAssignment,
    BinaryArithmeticGate.wire_ith_output_high_half]
  rw [if_pos (by omega)]
  have hd : (5 * i + 4) / 5 = i := by omega
  have hm : (5 * i + 4) % 5 = 4 := by omega
  simp [hd, hm]

theorem arith_witness_limb (numOps BITS : ℕ) (m0s m1s ads : ℕ → Goldilocks) (i j : ℕ)
    (hi : i < numOps) (hj : j < BinaryArithmeticGate.numLimbs BITS) :
    BinaryArithmeticGate.witnessAssignment numOps BITS m0s m1s ads
      (BinaryArithmeticGate.wire_ith_output_jth_limb numOps BITS i j) =
      ((((m0s i * m1s i + ads i).val / (2 ^ limbBits) ^ j % 2 ^ limbBits : ℕ)) :
        Goldilocks) := by
  have hL : 0 < BinaryArithmeticGate.numLimbs BITS := by omega
  simp only [BinaryArithmeticGate.witnessAssignment,
    BinaryArithmeticGate.wire_ith_output_jth_limb]
  rw [if_neg (by omega)]
  have hsub : 5 * numOps + BinaryArithmeticGate.numLimbs BITS * i + j - 5 * numOps =
      BinaryArithmeticGate.numLimbs BITS * i + j := by omega
  rw [hsub, Nat.mul_add_div hL, Nat.div_eq_of_lt hj, Nat.add_zero, Nat.mul_add_mod,
    Nat.mod_eq_of_lt hj]
  simp only [BinaryArithmeticGate.run_once]
  have hlen : j < ((limbDecomp (2 ^ limbBits) (BinaryArithmeticGate.numLimbs BITS)
      ((m0s i * m1s i + ads i).val)).map
        (fun l => ((l : ℕ) : Goldilocks))).length := by
    rw [List.length_map, limbDecomp_length]
    exact hj
  rw [List.getD_eq_getElem _ _ hlen, List.getElem_map, ← List.getD_eq_getElem,
    limbDecomp_getD _ _ _ _ hj]

theorem arith_witness_opConstraints_zero (numOps BITS : ℕ) (hB2 : 2 ∣ BITS)
    (hB32 : BITS ≤ 32) (m0s m1s ads : ℕ → Goldilocks) (i : ℕ) (hi : i < numOps)
    (h0 : (m0s i).val < 2 ^ BITS) (h1 : (m1s i).val < 2 ^ BITS)
    (h2 : (ads i).val < 2 ^ BITS) :
    ∀ c ∈ BinaryArithmeticGate.opConstraints Goldilocks numOps BITS
      (BinaryArithmeticGate.witnessAssignment numOps BITS m0s m1s ads) i, c = 0 := by
  have horder := goldilocksOrder_eq
  have hord : (2 : ℕ) ^ BITS ≤ 2 ^ 32 := Nat.pow_le_pow_right (by norm_num) hB32
  have hpos : 0 < (2 : ℕ) ^ BITS := pow_pos (by norm_num) BITS
  have hLB : BinaryArithmeticGate.numLimbs BITS = BITS := by
    simp only [BinaryArithmeticGate.numLimbs, limbBits]
    omega
  have heven : BinaryArithmeticGate.numLimbs BITS =
      BinaryArithmeticGate.numLimbs BITS / 2 + BinaryArithmeticGate.numLimbs BITS / 2 := by
    omega
  have hpowmid : ((2 : ℕ) ^ limbBits) ^ (BinaryArithmeticGate.numLimbs BITS / 2) =
      2 ^ BITS := by
    rw [← pow_mul]
    congr 1
    simp only [limbBits]
    omega
  obtain ⟨v, hv⟩ : ∃ v, v = (m0s i * m1s i + ads i).val := ⟨_, rfl⟩
  have hwrap : (m0s i).val * (m1s i).val + (ads i).val < goldilocksOrder :=
    goldilocks_no_wrap hB32 h0 h1 h2
  have hm0c : (((m0s i).val : ℕ) : Goldilocks) = m0s i := ZMod.natCast_rightInverse _
  have hm1c : (((m1s i).val : ℕ) : Goldilocks) = m1s i := ZMod.natCast_rightInverse _
  have hadc : (((ads i).val : ℕ) : Goldilocks) = ads i := ZMod.natCast_rightInverse _
  have hvval : v = (m0s i).val * (m1s i).val + (ads i).val := by
    rw [hv, show m0s i * m1s i + ads i =
      (((m0s i).val * (m1s i).val + (ads i).val : ℕ) : Goldilocks) by
        rw [Nat.cast_add, Nat.cast_mul, hm0c, hm1c, hadc],
      ZMod.val_cast_of_lt hwrap]
  have hcast : ((v : ℕ) : Goldilocks) = m0s i * m1s i + ads i := by
    rw [hv]
    exact ZMod.natCast_rightInverse _
  have hvlt : v < 2 ^ BITS * 2 ^ BITS := by
    obtain ⟨s, hs⟩ : ∃ s, (2 : ℕ) ^ BITS = s + 1 := ⟨2 ^ BITS - 1, by omega⟩
    rw [hs]
    have hm : (m0s i).val * (m1s i).val ≤ s * s :=
      Nat.mul_le_mul (by omega) (by omega)
    have hss : (s + 1) * (s + 1) = s * s + 2 * s + 1 := by ring
    omega
  have hdivlt : v / 2 ^ BITS < 2 ^ BITS := Nat.div_lt_of_lt_mul hvlt
  have hlow : (BinaryArithmeticGate.run_once BITS (m0s i) (m1s i) (ads i)).1.2 =
      ((v % 2 ^ BITS : ℕ) : Goldilocks) := by
    simp only [BinaryArithmeticGate.run_once]
    rw [← hv, Nat.and_pow_two_sub_one_eq_mod]
  have hhigh : (BinaryArithmeticGate.run_once BITS (m0s i) (m1s i) (ads i)).1.1 =
      ((v / 2 ^ BITS : ℕ) : Goldilocks) := by
    simp only [BinaryArithmeticGate.run_once]
    rw [← hv, Nat.shiftRight_eq_div_pow]
  -- the two recombination folds
  have hmapW : ∀ (l : List ℕ), (∀ j ∈ l, j < BinaryArithmeticGate.numLimbs BITS) →
      l.map (fun j => BinaryArithmeticGate.witnessAssignment numOps BITS m0s m1s ads
        (BinaryArithmeticGate.wire_ith_output_jth_limb numOps BITS i j)) =
      (l.map (fun j => v / (2 ^ limbBits) ^ j % 2 ^ limbBits)).map
        (fun d => ((d : ℕ) : Goldilocks)) := by
    intro l hl
    rw [List.map_map]
    refine List.map_congr_left (fun j hj => ?_)
    rw [arith_witness_limb numOps BITS m0s m1s ads i j hi (hl j hj), ← hv]
    rfl
  have hlowfold : limbFold ((2 ^ limbBits : ℕ) : Goldilocks)
      ((List.range (BinaryArithmeticGate.numLimbs BITS / 2)).map (fun j =>
        BinaryArithmeticGate.witnessAssignment numOps BITS m0s m1s ads
          (BinaryArithmeticGate.wire_ith_output_jth_limb numOps BITS i j))) =
      ((v % 2 ^ BITS : ℕ) : Goldilocks) := by
    rw [hmapW _ (fun j hj => by simp only [List.mem_range] at hj; omega),
      limbFold_map_natCast, List.range_eq_range', limbFold_digits, pow_zero,
      Nat.div_one, hpowmid]
  have hhighfold : limbFold ((2 ^ limbBits : ℕ) : Goldilocks)
      ((List.range' (BinaryArithmeticGate.numLimbs BITS / 2)
          (BinaryArithmeticGate.numLimbs BITS / 2)).map (fun j =>
        BinaryArithmeticGate.witnessAssignment numOps BITS m0s m1s ads
          (BinaryArithmeticGate.wire_ith_output_jth_limb numOps BITS i j))) =
      ((v / 2 ^ BITS : ℕ) : Goldilocks) := by
    rw [hmapW _ (fun j hj => by
        have := List.mem_range'_1.mp hj
        omega),
      limbFold_map_natCast, limbFold_digits, hpowmid, Nat.mod_eq_of_lt hdivlt]
  intro c hc
  simp only [BinaryArithmeticGate.opConstraints] at hc
  rw [arith_loop_full Goldilocks numOps BITS i _ heven] at hc
  simp only [List.mem_cons, List.mem_append, List.mem_map, List.mem_reverse,
    List.mem_range, List.not_mem_nil, or_false] at hc
  rcases hc with rfl | ⟨j, hj, rfl⟩ | rfl | rfl
  · -- main output constraint
    rw [arith_witness_high numOps BITS m0s m1s ads i hi,
      arith_witness_low numOps BITS m0s m1s ads i hi,
      arith_witness_m0 numOps BITS m0s m1s ads i hi,
      arith_witness_m1 numOps BITS m0s m1s ads i hi,
      arith_witness_addend numOps BITS m0s m1s ads i hi, hhigh, hlow]
    have hcomb : ((v / 2 ^ BITS : ℕ) : Goldilocks) * ((2 ^ BITS : ℕ) : Goldilocks) +
        ((v % 2 ^ BITS : ℕ) : Goldilocks) = ((v : ℕ) : Goldilocks) := by
      rw [← Nat.cast_mul, ← Nat.cast_add]
      congr 1
      rw [Nat.mul_comm]
      exact Nat.div_add_mod v (2 ^ BITS)
    rw [hcomb, hcast, sub_self]
  · -- limb zero-set polynomial
    rw [arith_witness_limb numOps BITS m0s m1s ads i j hi hj, ← hv]
    refine List.prod_eq_zero ?_
    refine List.mem_map.mpr ⟨v / (2 ^ limbBits) ^ j % 2 ^ limbBits, ?_, sub_self _⟩
    exact List.mem_range.mpr (Nat.mod_lt _ (by norm_num [limbBits]))
  · -- low-half recombination
    rw [arith_witness_low numOps BITS m0s m1s ads i hi, hlow, hlowfold, sub_self]
  · -- high-half recombination
    rw [arith_witness_high numOps BITS m0s m1s ads i hi, hhigh, hhighfold, sub_self]

/-- C2: for every spec'd `BITS` and any `num_ops`, the wire assignment produced
by `BinaryArithmeticGenerator::run_once` for every op (inputs, output halves
and all limbs), embedded into any extension of the field by a ring embedding
`φ`, makes every constraint value returned by
`BinaryArithmeticGate::eval_unfiltered` equal to zero. -/
theorem arithmetic_generator_satisfies_constraints (E : Type) [CommRing E]
    (φ : Goldilocks →+* E) (numOps BITS : ℕ) (hB : BITS ∈ [8, 16, 24, 30, 32])
    (m0s m1s ads : ℕ → Goldilocks)
    (h0 : ∀ i, i < numOps → (m0s i).val < 2 ^ BITS)
    (h1 : ∀ i, i < numOps → (m1s i).val < 2 ^ BITS)
    (h2 : ∀ i, i < numOps → (ads i).val < 2 ^ BITS) :
    ∀ c ∈ BinaryArithmeticGate.eval_unfiltered E numOps BITS
      (fun k => φ (BinaryArithmeticGate.witnessAssignment numOps BITS m0s m1s ads k)),
      c = 0 := by
  have hB2 : 2 ∣ BITS := by
    simp only [List.mem_cons, List.not_mem_nil, or_false] at hB
    rcases hB with rfl | rfl | rfl | rfl | rfl <;> norm_num
  have hB32 : BITS ≤ 32 := by
    simp only [List.mem_cons, List.not_mem_nil, or_false] at hB
    rcases hB with rfl | rfl | rfl | rfl | rfl <;> norm_num
  intro c hc
  rw [← arith_eval_map φ numOps BITS] at hc
  obtain ⟨c0, hc0, rfl⟩ := List.mem_map.mp hc
  rw [arith_eval_unfiltered_base_eq] at hc0
  obtain ⟨i, hi, hci⟩ := List.mem_flatMap.mp hc0
  rw [arith_witness_opConstraints_zero numOps BITS hB2 hB32 m0s m1s ads i
    (List.mem_range.mp hi) (h0 i (List.mem_range.mp hi)) (h1 i (List.mem_range.mp hi))
    (h2 i (List.mem_range.mp hi)) c0 hci]
  exact map_zero φ

/-- Witness for C2 at the spec scenario: one op, `BITS = 8`, inputs `(5, 7, 2)`,
`φ` the identity embedding; the first constraint value is zero. -/
theorem arithmetic_generator_satisfies_constraints_witness :
    (BinaryArithmeticGate.eval_unfiltered Goldilocks 1 8
      (fun k => (RingHom.id Goldilocks)
        (BinaryArithmeticGate.witnessAssignment 1 8
          (fun _ => 5) (fun _ => 7) (fun _ => 2) k))).getD 0 0 = 0 :=
  arithmetic_generator_satisfies_constraints Goldilocks (RingHom.id Goldilocks) 1 8
    (by decide) (fun _ => 5) (fun _ => 7) (fun _ => 2)
    (fun _ _ => show (5 : Goldilocks).val < 2 ^ 8 by decide)
    (fun _ _ => show (7 : Goldilocks).val < 2 ^ 8 by decide)
    (fun _ _ => show (2 : Goldilocks).val < 2 ^ 8 by decide)
    _ (by decide)
